import Mathlib

/-!
# bot-go: deterministic wallet derivation (`internal/wallet/wallet.go`)

A shallow embedding of the wallet package.  `GenerateWallets` is a composition
layer over three external packages (go-bip39, go-bip32, go-ethereum/crypto);
their entry points are collected in the record `Lib` and stay abstract, so every
statement about `GenerateWallets` holds for any behaviour of those packages.
Statements about what the packages themselves compute (the mnemonic codec, the
hexadecimal forms of a key and of an address) are made against models of them that
follow the specification; each such definition says so.

Go values are embedded as follows:
* `int` is `Int`; the loop counter, which ranges over `0 ≤ i < count`, is a `Nat`;
* `uint32(i)` is `i % 2 ^ 32`;
* `[]byte` is `List Nat`;
* `error` is the message string, `nil` error is `none`;
* a slice result that may be `nil` is an `Option (List _)`, `nil` being `none`.
-/

namespace BotGo

/-! ## Data model -/

/-- The Go type `common.Address`, an array of 20 bytes. -/
abbrev Address : Type := { bs : List Nat // bs.length = 20 ∧ ∀ b ∈ bs, b < 256 }

/-- The Go type `ecdsa.PublicKey` (the curve is fixed to secp256k1). -/
structure PublicKey where
  X : Nat
  Y : Nat
deriving DecidableEq, Repr

/-- The Go type `ecdsa.PrivateKey`: the embedded public key and the scalar `D`. -/
structure PrivateKey where
  PublicKey : PublicKey
  D : Nat
deriving DecidableEq, Repr

/-- The Go interface `crypto.PublicKey`: a value of any dynamic type.  Only the
dynamic type `*ecdsa.PublicKey` is told apart by `GenerateWallets`. -/
inductive CryptoPublicKey where
  | ecdsa (key : PublicKey)
  | other
deriving DecidableEq, Repr

/-- The method `(*ecdsa.PrivateKey).Public` of the Go standard library: it returns
the embedded public key as a `crypto.PublicKey`. -/
def PrivateKey.Public (priv : PrivateKey) : CryptoPublicKey :=
  .ecdsa priv.PublicKey

/-- The Go type `bip32.Key`, one node of the hierarchical key tree. -/
structure Bip32Key where
  Key : List Nat
  Version : List Nat
  ChildNumber : List Nat
  FingerPrint : List Nat
  ChainCode : List Nat
  Depth : Nat
  IsPrivate : Bool
deriving DecidableEq, Repr

/-- The Go type `accounts.URL`. -/
structure URL where
  Scheme : String
  Path : String
deriving DecidableEq, Repr

/-- The Go type `accounts.Account`. -/
structure Account where
  Address : Address
  URL : URL
deriving DecidableEq

/-- The struct `Wallet` of `wallet.go`. -/
structure Wallet where
  Index : Int
  Address : Address
  PrivateKey : PrivateKey
  Account : Account
deriving DecidableEq

/-- The external functions called by `GenerateWallets`:
`bip39.IsMnemonicValid`, `bip39.NewSeed`, `bip32.NewMasterKey`,
`(*bip32.Key).NewChildKey`, `crypto.ToECDSA` and `crypto.PubkeyToAddress`. -/
structure Lib where
  IsMnemonicValid : String → Bool
  NewSeed : String → String → List Nat
  NewMasterKey : List Nat → Except String Bip32Key
  NewChildKey : Bip32Key → Nat → Except String Bip32Key
  ToECDSA : List Nat → Except String PrivateKey
  PubkeyToAddress : PublicKey → Address

/-- The pair `([]*Wallet, error)` returned by `GenerateWallets`. -/
structure WalletsResult where
  wallets : Option (List Wallet)
  err : Option String
deriving DecidableEq

/-! ## `GenerateWallets` -/

/-- The conversion `uint32(i)` of a non-negative `int`. -/
def uint32 (i : Nat) : Nat := i % 2 ^ 32

/-- The slice literal `path` built in iteration `i` of the loop of `GenerateWallets`. -/
def derivationPath (i : Nat) : List Nat :=
  [0x8000002C, 0x8000003C, 0x80000000, 0x00000000, uint32 i]

/-- The inner loop `for _, pathElement := range path` of iteration `i`: it replaces
`childKey` by its child at every path element and leaves `GenerateWallets` with an
error at the first step that fails. -/
def deriveChildKey (lib : Lib) (i : Nat) : Bip32Key → List Nat → Except String Bip32Key
  | childKey, [] => .ok childKey
  | childKey, pathElement :: rest =>
    match lib.NewChildKey childKey pathElement with
    | .error err =>
      .error ("failed to derive child key at index " ++ toString i ++ ": " ++ err)
    | .ok child => deriveChildKey lib i child rest

/-- The body of iteration `i` of the outer loop of `GenerateWallets`, up to the
`append`: the wallet to be appended, or the error the function returns with. -/
def newWallet (lib : Lib) (masterKey : Bip32Key) (i : Nat) : Except String Wallet :=
  match deriveChildKey lib i masterKey (derivationPath i) with
  | .error msg => .error msg
  | .ok childKey =>
    match lib.ToECDSA childKey.Key with
    | .error err =>
      .error ("failed to convert to ECDSA private key at index " ++ toString i ++ ": " ++ err)
    | .ok privateKeyECDSA =>
      match privateKeyECDSA.Public with
      | .ecdsa publicKeyECDSA =>
        let address := lib.PubkeyToAddress publicKeyECDSA
        .ok { Index := (i : Int), Address := address, PrivateKey := privateKeyECDSA,
              Account := { Address := address, URL := { Scheme := "", Path := "" } } }
      | .other => .error ("failed to cast public key to ECDSA at index " ++ toString i)

/-- The loop `for i := 0; i < count; i++` of `GenerateWallets`, started at counter `i`
with `remaining = count - i` iterations to go and the slice `wallets` built so far. -/
def walletLoop (lib : Lib) (masterKey : Bip32Key) :
    Nat → Nat → List Wallet → WalletsResult
  | 0, _, wallets => { wallets := some wallets, err := none }
  | remaining + 1, i, wallets =>
    match newWallet lib masterKey i with
    | .error msg => { wallets := none, err := some msg }
    | .ok wallet => walletLoop lib masterKey remaining (i + 1) (wallets ++ [wallet])

/-- The number of iterations: `count`, replaced by 50 when it is not positive. -/
def effectiveCount (count : Int) : Nat :=
  (if count ≤ 0 then 50 else count).toNat

/-- The function `GenerateWallets(mnemonic, count)`. -/
def GenerateWallets (lib : Lib) (mnemonic : String) (count : Int) : WalletsResult :=
  let count := effectiveCount count
  if !lib.IsMnemonicValid mnemonic then
    { wallets := none, err := some "invalid mnemonic phrase" }
  else
    let seed := lib.NewSeed mnemonic ""
    match lib.NewMasterKey seed with
    | .error err => { wallets := none, err := some ("failed to create master key: " ++ err) }
    | .ok masterKey => walletLoop lib masterKey count 0 []

/-- The ordered fold of single-step child derivation over a path. -/
def foldChildKey (lib : Lib) (key : Bip32Key) (path : List Nat) : Except String Bip32Key :=
  List.foldlM (m := Except String) (fun k pathElement => lib.NewChildKey k pathElement) key path

/-- The record the specification describes for index `i`: the master key of the seed
of the mnemonic with the empty passphrase, the fold of child derivation over the path
`[0x8000002C, 0x8000003C, 0x80000000, 0, i]`, whose last element is the index `i`
itself, the private key of the derived node and the address of its public key. -/
def referenceWallet (lib : Lib) (mnemonic : String) (i : Nat) : Except String Wallet := do
  let masterKey ← lib.NewMasterKey (lib.NewSeed mnemonic "")
  let k ← foldChildKey lib masterKey [0x8000002C, 0x8000003C, 0x80000000, 0, i]
  let privateKey ← lib.ToECDSA k.Key
  let a := lib.PubkeyToAddress privateKey.PublicKey
  pure { Index := (i : Int), Address := a, PrivateKey := privateKey,
         Account := { Address := a, URL := { Scheme := "", Path := "" } } }

/-! ## `GenerateMnemonic` -/

deriving instance DecidableEq for Except

/-- The function `GenerateMnemonic()`, over the two functions of go-bip39 it calls:
`bip39.NewEntropy` and `bip39.NewMnemonic`.  The result is the pair `(string, error)`. -/
def GenerateMnemonic {ε : Type} (NewEntropy : Nat → Except ε (List Nat))
    (NewMnemonic : List Nat → Except ε String) : String × Option ε :=
  match NewEntropy 128 with
  | .error err => ("", some err)
  | .ok entropy =>
    match NewMnemonic entropy with
    | .error err => ("", some err)
    | .ok mnemonic => (mnemonic, none)

/-! ## Fixed-width big-endian digits

Bits, hexadecimal digits and bytes are digits in base 2, 16 and 256. -/

/-- The `width` low-order digits of `n` in base `base`, most significant first. -/
def digitsBE (base : Nat) : Nat → Nat → List Nat
  | 0, _ => []
  | width + 1, n => digitsBE base width (n / base) ++ [n % base]

/-- The number written by a sequence of digits, most significant first. -/
def ofDigitsBE (base : Nat) (ds : List Nat) : Nat :=
  ds.foldl (fun acc d => acc * base + d) 0

/-- The bit-stream of a byte sequence: eight bits per byte, most significant first. -/
def bytesToBits (bytes : List Nat) : List Nat :=
  (bytes.map (digitsBE 2 8)).flatten

/-- The first `k` consecutive groups of `n` elements of a sequence. -/
def chunks {α : Type} (n : Nat) : Nat → List α → List (List α)
  | 0, _ => []
  | k + 1, l => l.take n :: chunks n k (l.drop n)

/-- A sequence sliced into groups of `n` elements. -/
def groups {α : Type} (n : Nat) (l : List α) : List (List α) :=
  chunks n (l.length / n) l

/-! ## The mnemonic codec and the entropy source (go-bip39)

The package go-bip39 is not part of the repository.  Where a statement is about what
its functions compute, they are modelled from sections 4.1 and 4.2 of the
specification, over a dictionary and a hash function that stay abstract. -/

/-- The errors of section 7 of the specification that concern mnemonics. -/
inductive MnemonicError where
  | EntropyError
  | InvalidEntropyLength
  | UnknownWord (position : Nat)
  | InvalidWordCount
  | ChecksumMismatch
deriving DecidableEq, Repr

/-- The fixed tables of the mnemonic codec: the dictionary (2048 words) and the
cryptographic hash the checksum is taken from. -/
structure Codec where
  dictionary : List String
  hash : List Nat → List Nat

/-- Modelled from the spec: the Entropy Source of section 4.1 (`bip39.NewEntropy`, not in
the repository).  `generate(bits) -> bytes[bits/8]`; it fails with `EntropyError` when the
secure random source is unavailable (`none`) or returns a short read.  The random
source is the argument `source`, asked for a number of bytes. -/
def generate (source : Nat → Option (List Nat)) (bits : Nat) :
    Except MnemonicError (List Nat) :=
  match source (bits / 8) with
  | none => .error .EntropyError
  | some bytes => if bytes.length = bits / 8 then .ok bytes else .error .EntropyError

/-- Modelled from the spec: the checksum of section 4.2, the leading `entropy_bits/32`
bits of the hash of the entropy. -/
def checksum (c : Codec) (entropy : List Nat) : List Nat :=
  (bytesToBits (c.hash entropy)).take (entropy.length * 8 / 32)

/-- The characters of a word sequence written as one string, words separated by one space. -/
def joinWords : List (List Char) → List Char
  | [] => []
  | [w] => w
  | w :: ws => w ++ ' ' :: joinWords ws

/-- The words of a string, read from the left: `cur` is the word being read. -/
def splitWords : List Char → List Char → List (List Char)
  | cur, [] => if cur = [] then [] else [cur]
  | cur, c :: cs =>
    if c.isWhitespace then
      if cur = [] then splitWords [] cs else cur :: splitWords [] cs
    else splitWords (cur ++ [c]) cs

/-- The word sequence of a mnemonic string: its maximal runs of non-blank characters. -/
def mnemonicWords (mnemonic : String) : List String :=
  (splitWords [] mnemonic.data).map String.mk

/-- Modelled from the spec: `encode(entropy) -> words` of section 4.2
(`bip39.NewMnemonic`, not in the repository).  The entropy length must be 128, 160, 192,
224 or 256 bits; the checksum is appended to the entropy bit-stream, the combined
bit-stream is sliced into 11-bit groups, and each group indexes the dictionary.  The
words are returned as one string, separated by single spaces. -/
def encode (c : Codec) (entropy : List Nat) : Except MnemonicError String :=
  if entropy.length * 8 ∈ [128, 160, 192, 224, 256] then
    let bits := bytesToBits entropy ++ checksum c entropy
    let words := (groups 11 bits).map (fun g => c.dictionary.getD (ofDigitsBE 2 g) "")
    .ok (String.mk (joinWords (words.map String.data)))
  else .error .InvalidEntropyLength

/-- The position of the first word that is not in the dictionary, counted from `position`. -/
def firstUnknown (dictionary : List String) : Nat → List String → Option Nat
  | _, [] => none
  | position, w :: ws =>
    if dictionary.contains w then firstUnknown dictionary (position + 1) ws
    else some position

/-- Modelled from the spec: `decode_and_validate(words) -> entropy` of section 4.2 (the
check behind `bip39.IsMnemonicValid`, not in the repository).  Every word must exist in
the dictionary (`UnknownWord` with its position otherwise); the word count must be a
supported length (`InvalidWordCount`); entropy and checksum are reconstructed from the
indices and the checksum is recomputed and compared bit for bit (`ChecksumMismatch`). -/
def decodeAndValidate (c : Codec) (mnemonic : String) : Except MnemonicError (List Nat) :=
  let words := mnemonicWords mnemonic
  match firstUnknown c.dictionary 0 words with
  | some position => .error (.UnknownWord position)
  | none =>
    if words.length ∈ [12, 15, 18, 21, 24] then
      let bits := (words.map (fun w => digitsBE 2 11 (c.dictionary.indexOf w))).flatten
      let entropyBits := words.length * 32 / 3
      let entropy := (groups 8 (bits.take entropyBits)).map (ofDigitsBE 2)
      if bits.drop entropyBits = checksum c entropy then .ok entropy
      else .error .ChecksumMismatch
    else .error .InvalidWordCount

/-- Modelled from the spec: the validity test applied by `GenerateWallets`
(`bip39.IsMnemonicValid`, not in the repository): `decode_and_validate` succeeds. -/
def isMnemonicValid (c : Codec) (mnemonic : String) : Bool :=
  match decodeAndValidate c mnemonic with
  | .ok _ => true
  | .error _ => false

/-- The tables of the codec are well formed: 2048 distinct words, none empty and none
with a blank, and a hash of 32 bytes. -/
structure Codec.WellFormed (c : Codec) : Prop where
  size : c.dictionary.length = 2048
  nodup : c.dictionary.Nodup
  words : ∀ w ∈ c.dictionary, w.data ≠ [] ∧ ∀ ch ∈ w.data, ch.isWhitespace = false
  hashSize : ∀ e, (c.hash e).length = 32


/-! ## Hexadecimal output -/

/-- The digit table `ldigits` of the Go package `fmt`. -/
def hexDigits : List Char :=
  ['0', '1', '2', '3', '4', '5', '6', '7', '8', '9', 'a', 'b', 'c', 'd', 'e', 'f']

/-- The Go call `fmt.Sprintf("%x", bytes)` on a byte slice: two lowercase hexadecimal
digits per byte, high nibble first. -/
def sprintfHex (bytes : List Nat) : String :=
  String.mk (bytes.map (fun b => [hexDigits.getD (b / 16) '0', hexDigits.getD (b % 16) '0'])).flatten

/-- The value of a hexadecimal digit, of either case. -/
def hexValue (c : Char) : Option Nat :=
  if '0' ≤ c ∧ c ≤ '9' then some (c.toNat - 48)
  else if 'a' ≤ c ∧ c ≤ 'f' then some (c.toNat - 87)
  else if 'A' ≤ c ∧ c ≤ 'F' then some (c.toNat - 55)
  else none

/-- The bytes written by a string of hexadecimal digits, two digits per byte. -/
def decodeHex : List Char → Option (List Nat)
  | [] => some []
  | [_] => none
  | hi :: lo :: rest =>
    match hexValue hi, hexValue lo, decodeHex rest with
    | some h, some l, some bytes => some ((h * 16 + l) :: bytes)
    | _, _, _ => none

/-- The case rule of the address checksum: a letter digit is written in upper case when
the matching nibble of the hash is above 7. -/
def checksumCase (hashNibble : Nat) (c : Char) : Char :=
  if '9' < c ∧ 7 < hashNibble then Char.ofNat (c.toNat - 32) else c

/-- The case rule applied along a digit string, the digit at position `i` against the
nibble `i` of the hash. -/
def applyChecksum (hashNibbles : List Nat) : Nat → List Char → List Char
  | _, [] => []
  | i, c :: cs => checksumCase (hashNibbles.getD i 0) c :: applyChecksum hashNibbles (i + 1) cs


/-- Modelled from the spec: the byte form of a private key (`crypto.FromECDSA`, not in
the repository): the `32-byte private key scalar` of section 3, most significant byte
first. -/
def FromECDSA (priv : PrivateKey) : List Nat :=
  digitsBE 256 32 priv.D

/-- Modelled from the spec: the `checksummed hexadecimal address string (0x-prefixed, 40 hex
digits)` of section 6 (`common.Address.Hex`, not in the repository): the lowercase
hexadecimal digits of the 20 bytes, each letter digit put in upper case according to the
hash `keccak` of the lowercase digit string, after the prefix `0x`. -/
def AddressHex (keccak : List Nat → List Nat) (a : Address) : String :=
  let lower := (sprintfHex a.val).data
  let hashNibbles := ((keccak (lower.map Char.toNat)).map (fun b => [b / 16, b % 16])).flatten
  String.mk ('0' :: 'x' :: applyChecksum hashNibbles 0 lower)

/-- The method `(*Wallet).GetPrivateKeyHex`. -/
def GetPrivateKeyHex (w : Wallet) : String :=
  sprintfHex (FromECDSA w.PrivateKey)

/-- The method `(*Wallet).GetAddressHex`. -/
def GetAddressHex (keccak : List Nat → List Nat) (w : Wallet) : String :=
  AddressHex keccak w.Address

/-! ## A test double of the external packages

`stubLib` scripts the external packages so that statements can be instantiated at
concrete inputs: a key records the path that leads to it, and failures are switched
on by the two arguments. -/

/-- An address made of 20 copies of one byte. -/
def stubAddress (n : Nat) : Address :=
  ⟨List.replicate 20 (n % 256), by
    refine ⟨List.length_replicate _ _, ?_⟩
    intro b hb
    rw [List.eq_of_mem_replicate hb]
    exact Nat.mod_lt _ (by decide)⟩

/-- A scripted library: the mnemonic is valid when it is not empty, master-key creation
succeeds when `masterOk`, child derivation fails at the path element `failAt`. -/
def stubLib (failAt : Option Nat) (masterOk : Bool) : Lib where
  IsMnemonicValid := fun mnemonic => mnemonic != ""
  NewSeed := fun mnemonic passphrase => [mnemonic.length, passphrase.length]
  NewMasterKey := fun seed =>
    if masterOk then
      .ok { Key := seed, Version := [], ChildNumber := [], FingerPrint := [],
            ChainCode := [], Depth := 0, IsPrivate := true }
    else .error "invalid seed"
  NewChildKey := fun key pathElement =>
    if failAt = some pathElement then .error "invalid child"
    else .ok { key with Key := key.Key ++ [pathElement], ChildNumber := [pathElement],
                        Depth := key.Depth + 1 }
  ToECDSA := fun key =>
    .ok { PublicKey := { X := key.length, Y := key.getLastD 0 },
          D := key.getLastD 0 % 2 ^ 256 }
  PubkeyToAddress := fun pub => stubAddress pub.Y


/-- The master key the scripted library creates for the mnemonic `seed phrase`. -/
def stubMasterKey : Bip32Key :=
  { Key := [11, 0], Version := [], ChildNumber := [], FingerPrint := [],
    ChainCode := [], Depth := 0, IsPrivate := true }

/-- The wallet the scripted library derives over a path that ends in 7, but for `Index`. -/
def stubWalletSeven (index : Int) : Wallet :=
  { Index := index, Address := stubAddress 7,
    PrivateKey := { PublicKey := { X := 7, Y := 7 }, D := 7 },
    Account := { Address := stubAddress 7, URL := { Scheme := "", Path := "" } } }

/-- The word of index `i` of the scripted dictionary: the 11 bits of `i`, written with
the letters `a` (0) and `b` (1). -/
def stubWord (i : Nat) : String :=
  String.mk ((digitsBE 2 11 i).map (fun b => if b = 0 then 'a' else 'b'))

/-- The scripted dictionary: the words of the indices 0 to 2047. -/
def stubDictionary : List String :=
  (List.range 2048).map stubWord

/-- A scripted codec: 2048 words, and a 32-byte stand-in for the hash. -/
def stubCodec : Codec where
  dictionary := stubDictionary
  hash := fun entropy => List.replicate 32 ((entropy.sum + 255) % 256)

/-- The scripted library with the validator of a codec. -/
def codecLib (c : Codec) : Lib :=
  { stubLib none true with IsMnemonicValid := isMnemonicValid c }

/-- Twelve words, the first one not in the scripted dictionary. -/
def unknownFirst : String :=
  "zzz aaaaaaaaaaa aaaaaaaaaaa aaaaaaaaaaa aaaaaaaaaaa aaaaaaaaaaa aaaaaaaaaaa aaaaaaaaaaa aaaaaaaaaaa aaaaaaaaaaa aaaaaaaaaaa aaaaaaaaaaa"

/-- Twelve words, the second one not in the scripted dictionary. -/
def unknownSecond : String :=
  "aaaaaaaaaaa zzz aaaaaaaaaaa aaaaaaaaaaa aaaaaaaaaaa aaaaaaaaaaa aaaaaaaaaaa aaaaaaaaaaa aaaaaaaaaaa aaaaaaaaaaa aaaaaaaaaaa aaaaaaaaaaa"

/-- Two dictionary words: not a supported word count. -/
def twoWords : String :=
  "aaaaaaaaaaa aaaaaaaaaaa"

/-- Twelve dictionary words whose checksum bits do not match. -/
def badChecksum : String :=
  "aaaaaaaaaaa aaaaaaaaaaa aaaaaaaaaaa aaaaaaaaaaa aaaaaaaaaaa aaaaaaaaaaa aaaaaaaaaaa aaaaaaaaaaa aaaaaaaaaaa aaaaaaaaaaa aaaaaaaaaaa aaaaaaaaaaa"

/-- The mnemonic of 16 zero bytes in the scripted codec. -/
def zeroEntropyMnemonic : String :=
  "aaaaaaaaaaa aaaaaaaaaaa aaaaaaaaaaa aaaaaaaaaaa aaaaaaaaaaa aaaaaaaaaaa aaaaaaaaaaa aaaaaaaaaaa aaaaaaaaaaa aaaaaaaaaaa aaaaaaaaaaa aaaaaaabbbb"

/-- A scripted random source: it always yields zero bytes. -/
def zeroSource (n : Nat) : Option (List Nat) :=
  some (List.replicate n 0)

/-! # Theorems -/

/-! ## The loop of `GenerateWallets` -/

/-- The loop ends in one of two ways: all wallets and no error, or no wallets and an error. -/
theorem walletLoop_shape (lib : Lib) (masterKey : Bip32Key) :
    ∀ (remaining i : Nat) (wallets : List Wallet),
      (∃ out, walletLoop lib masterKey remaining i wallets = { wallets := some out, err := none }) ∨
      (∃ msg, walletLoop lib masterKey remaining i wallets = { wallets := none, err := some msg }) := by
  intro remaining
  induction remaining with
  | zero => intro i wallets; exact Or.inl ⟨wallets, rfl⟩
  | succ r ih =>
    intro i wallets
    unfold walletLoop
    cases h : newWallet lib masterKey i with
    | error msg => exact Or.inr ⟨msg, rfl⟩
    | ok wallet => exact ih (i + 1) (wallets ++ [wallet])

/-- The loop succeeds exactly when every iteration does, and it then returns the
wallets of the iterations, in order, after the ones it started with. -/
theorem walletLoop_ok_iff (lib : Lib) (masterKey : Bip32Key) :
    ∀ (remaining i : Nat) (wallets out : List Wallet),
      walletLoop lib masterKey remaining i wallets = { wallets := some out, err := none } ↔
      ∃ new, out = wallets ++ new ∧ new.length = remaining ∧
        ∀ k w, new[k]? = some w → newWallet lib masterKey (i + k) = .ok w := by
  intro remaining
  induction remaining with
  | zero =>
    intro i wallets out
    constructor
    · intro h
      simp only [walletLoop, WalletsResult.mk.injEq, Option.some.injEq, and_true] at h
      exact ⟨[], by simp [h], rfl, by simp⟩
    · rintro ⟨new, hout, hlen, -⟩
      have : new = [] := List.length_eq_zero.mp hlen
      subst this
      simp [walletLoop, hout]
  | succ r ih =>
    intro i wallets out
    unfold walletLoop
    cases h : newWallet lib masterKey i with
    | error msg =>
      constructor
      · intro hres
        simp at hres
      · rintro ⟨new, -, hlen, hall⟩
        cases new with
        | nil => simp at hlen
        | cons w rest =>
          have := hall 0 w (by simp)
          simp [h] at this
    | ok wallet =>
      simp only
      rw [ih]
      constructor
      · rintro ⟨new, hout, hlen, hall⟩
        refine ⟨wallet :: new, by simp [hout], by simp [hlen], ?_⟩
        intro k w hk
        cases k with
        | zero =>
          simp at hk
          subst hk
          simpa using h
        | succ k =>
          simp at hk
          have := hall k w hk
          rwa [Nat.add_assoc, Nat.add_comm 1 k] at this
      · rintro ⟨new, hout, hlen, hall⟩
        cases new with
        | nil => simp at hlen
        | cons w rest =>
          have h0 := hall 0 w (by simp)
          simp [h] at h0
          subst h0
          refine ⟨rest, by simp [hout], by simpa using hlen, ?_⟩
          intro k w hk
          have := hall (k + 1) w (by simpa using hk)
          rwa [Nat.add_assoc, Nat.add_comm 1 k]

/-- An iteration that fails makes the loop return no wallets and an error. -/
theorem walletLoop_error_of_fail (lib : Lib) (masterKey : Bip32Key) :
    ∀ (remaining i : Nat) (wallets : List Wallet) (k : Nat) (msg : String),
      k < remaining → newWallet lib masterKey (i + k) = .error msg →
      ∃ msg', walletLoop lib masterKey remaining i wallets = { wallets := none, err := some msg' } := by
  intro remaining i wallets k msg hk hfail
  rcases walletLoop_shape lib masterKey remaining i wallets with ⟨out, hout⟩ | h
  · obtain ⟨new, -, hlen, hall⟩ := (walletLoop_ok_iff lib masterKey remaining i wallets out).mp hout
    have hk' : k < new.length := by omega
    have := hall k (new.get ⟨k, hk'⟩) (by simp [List.getElem?_eq_getElem hk'])
    rw [hfail] at this
    cases this
  · exact h

/-! ## `GenerateWallets` as a whole -/

/-- An invalid mnemonic is answered before anything else is computed. -/
theorem GenerateWallets_invalid (lib : Lib) (mnemonic : String) (count : Int)
    (hv : lib.IsMnemonicValid mnemonic = false) :
    GenerateWallets lib mnemonic count =
      { wallets := none, err := some "invalid mnemonic phrase" } := by
  simp [GenerateWallets, hv]

/-- A master key that cannot be created ends the call. -/
theorem GenerateWallets_master_error (lib : Lib) (mnemonic : String) (count : Int) (err : String)
    (hv : lib.IsMnemonicValid mnemonic = true)
    (hm : lib.NewMasterKey (lib.NewSeed mnemonic "") = .error err) :
    GenerateWallets lib mnemonic count =
      { wallets := none, err := some ("failed to create master key: " ++ err) } := by
  simp [GenerateWallets, hv, hm]

/-- With a valid mnemonic and a master key the call is the loop over the indices. -/
theorem GenerateWallets_loop (lib : Lib) (mnemonic : String) (count : Int)
    (masterKey : Bip32Key) (hv : lib.IsMnemonicValid mnemonic = true)
    (hm : lib.NewMasterKey (lib.NewSeed mnemonic "") = .ok masterKey) :
    GenerateWallets lib mnemonic count =
      walletLoop lib masterKey (effectiveCount count) 0 [] := by
  simp [GenerateWallets, hv, hm]

/-- The call ends in one of two ways: wallets and no error, or no wallets and an error. -/
theorem GenerateWallets_shape (lib : Lib) (mnemonic : String) (count : Int) :
    (∃ out, GenerateWallets lib mnemonic count = { wallets := some out, err := none }) ∨
    (∃ msg, GenerateWallets lib mnemonic count = { wallets := none, err := some msg }) := by
  cases hv : lib.IsMnemonicValid mnemonic with
  | false => exact Or.inr ⟨_, GenerateWallets_invalid lib mnemonic count hv⟩
  | true =>
    cases hm : lib.NewMasterKey (lib.NewSeed mnemonic "") with
    | error err => exact Or.inr ⟨_, GenerateWallets_master_error lib mnemonic count err hv hm⟩
    | ok masterKey =>
      rw [GenerateWallets_loop lib mnemonic count masterKey hv hm]
      exact walletLoop_shape lib masterKey _ 0 []

/-- The call succeeds exactly when the mnemonic is valid, the master key is created
and every iteration succeeds; the result lists the wallets of the iterations. -/
theorem GenerateWallets_ok_iff (lib : Lib) (mnemonic : String) (count : Int)
    (out : List Wallet) :
    GenerateWallets lib mnemonic count = { wallets := some out, err := none } ↔
    lib.IsMnemonicValid mnemonic = true ∧
    ∃ masterKey, lib.NewMasterKey (lib.NewSeed mnemonic "") = .ok masterKey ∧
      out.length = effectiveCount count ∧
      ∀ k w, out[k]? = some w → newWallet lib masterKey k = .ok w := by
  cases hv : lib.IsMnemonicValid mnemonic with
  | false => simp [GenerateWallets_invalid lib mnemonic count hv]
  | true =>
    cases hm : lib.NewMasterKey (lib.NewSeed mnemonic "") with
    | error err => simp [GenerateWallets_master_error lib mnemonic count err hv hm]
    | ok masterKey =>
      rw [GenerateWallets_loop lib mnemonic count masterKey hv hm, walletLoop_ok_iff]
      constructor
      · rintro ⟨new, hout, hlen, hall⟩
        simp only [List.nil_append] at hout
        subst hout
        exact ⟨rfl, masterKey, rfl, hlen, by simpa using hall⟩
      · rintro ⟨-, mk, hmk, hlen, hall⟩
        cases hmk
        exact ⟨out, by simp, hlen, by simpa using hall⟩

/-- The inner loop yields a key exactly when the fold over the path does, and the same key. -/
theorem deriveChildKey_ok_iff (lib : Lib) (i : Nat) :
    ∀ (path : List Nat) (key child : Bip32Key),
      deriveChildKey lib i key path = .ok child ↔ foldChildKey lib key path = .ok child := by
  intro path
  induction path with
  | nil =>
    intro key child
    simp [deriveChildKey, foldChildKey, pure, Except.pure]
  | cons e rest ih =>
    intro key child
    unfold deriveChildKey
    simp only [foldChildKey, List.foldlM_cons, bind, Except.bind]
    cases h : lib.NewChildKey key e with
    | error err => simp
    | ok c => simpa [foldChildKey] using ih c child

/-- The inner loop fails exactly when the fold over the path does. -/
theorem deriveChildKey_error_iff (lib : Lib) (i : Nat) :
    ∀ (path : List Nat) (key : Bip32Key),
      (∃ msg, deriveChildKey lib i key path = .error msg) ↔
      (∃ err, foldChildKey lib key path = .error err) := by
  intro path
  induction path with
  | nil =>
    intro key
    simp [deriveChildKey, foldChildKey, pure, Except.pure]
  | cons e rest ih =>
    intro key
    unfold deriveChildKey
    simp only [foldChildKey, List.foldlM_cons, bind, Except.bind]
    cases h : lib.NewChildKey key e with
    | error err => simp
    | ok c => simpa [foldChildKey] using ih c

/-- What a successful iteration `i` appends. -/
theorem newWallet_ok_iff (lib : Lib) (masterKey : Bip32Key) (i : Nat) (w : Wallet) :
    newWallet lib masterKey i = .ok w ↔
    ∃ childKey privateKey,
      foldChildKey lib masterKey (derivationPath i) = .ok childKey ∧
      lib.ToECDSA childKey.Key = .ok privateKey ∧
      w = { Index := (i : Int), Address := lib.PubkeyToAddress privateKey.PublicKey,
            PrivateKey := privateKey,
            Account := { Address := lib.PubkeyToAddress privateKey.PublicKey,
                         URL := { Scheme := "", Path := "" } } } := by
  unfold newWallet
  cases hd : deriveChildKey lib i masterKey (derivationPath i) with
  | error msg =>
    have : ∀ k, foldChildKey lib masterKey (derivationPath i) ≠ .ok k := by
      intro k hk
      rw [← deriveChildKey_ok_iff lib i, hd] at hk
      cases hk
    constructor
    · intro h
      cases h
    · rintro ⟨k, -, hk, -⟩
      exact absurd hk (this k)
  | ok childKey =>
    have hf := (deriveChildKey_ok_iff lib i _ _ _).mp hd
    simp only [hf, Except.ok.injEq, exists_and_left, exists_eq_left']
    cases ht : lib.ToECDSA childKey.Key with
    | error err => simp
    | ok priv =>
      simp only [PrivateKey.Public, Except.ok.injEq, exists_eq_left']
      exact eq_comm

/-- The loop succeeds when every one of its iterations does. -/
theorem walletLoop_ok_of_all (lib : Lib) (masterKey : Bip32Key) :
    ∀ (remaining i : Nat) (wallets : List Wallet),
      (∀ k, k < remaining → ∃ w, newWallet lib masterKey (i + k) = .ok w) →
      ∃ out, walletLoop lib masterKey remaining i wallets = { wallets := some out, err := none } := by
  intro remaining i wallets hall
  rcases walletLoop_shape lib masterKey remaining i wallets with h | ⟨msg, hmsg⟩
  · exact h
  · exfalso
    have key : ∀ (r j : Nat) (ws : List Wallet) (m : String),
        (∀ k, k < r → ∃ w, newWallet lib masterKey (j + k) = .ok w) →
        walletLoop lib masterKey r j ws ≠ { wallets := none, err := some m } := by
      intro r
      induction r with
      | zero => intro j ws m _ h; simp [walletLoop] at h
      | succ r ih =>
        intro j ws m hk
        obtain ⟨w, hw⟩ := hk 0 (Nat.succ_pos r)
        rw [Nat.add_zero] at hw
        unfold walletLoop
        rw [hw]
        apply ih
        intro k hlt
        have := hk (k + 1) (Nat.succ_lt_succ hlt)
        rwa [Nat.add_assoc, Nat.add_comm 1 k]
    exact key remaining i wallets msg hall hmsg

/-! ## Batch size -/

/-- C1: a count that is not positive (such as 0 or -3) is replaced by 50: the call
returns what `GenerateWallets(m, 50)` returns; when the mnemonic is valid, the master
key is created and the 50 derivations succeed, it returns no error and exactly 50
wallets; and every result without error holds exactly 50 wallets. -/
theorem nonpositive_count_yields_fifty (lib : Lib) (mnemonic : String) (count : Int)
    (hcount : count ≤ 0) :
    GenerateWallets lib mnemonic count = GenerateWallets lib mnemonic 50 ∧
    (∀ masterKey, lib.IsMnemonicValid mnemonic = true →
      lib.NewMasterKey (lib.NewSeed mnemonic "") = .ok masterKey →
      (∀ i, i < 50 → ∃ w, newWallet lib masterKey i = .ok w) →
      ∃ ws, GenerateWallets lib mnemonic count = { wallets := some ws, err := none } ∧
        ws.length = 50) ∧
    (∀ ws, GenerateWallets lib mnemonic count = { wallets := some ws, err := none } →
      ws.length = 50) := by
  have hc : effectiveCount count = 50 := by simp [effectiveCount, hcount]
  have hlen : ∀ ws, GenerateWallets lib mnemonic count = { wallets := some ws, err := none } →
      ws.length = 50 := by
    intro ws hws
    obtain ⟨-, mk, -, hl, -⟩ := (GenerateWallets_ok_iff lib mnemonic count ws).mp hws
    rw [hl, hc]
  refine ⟨?_, ?_, hlen⟩
  · have h50 : effectiveCount 50 = 50 := by decide
    simp only [GenerateWallets, hc, h50]
  · intro masterKey hv hm hall
    rw [GenerateWallets_loop lib mnemonic count masterKey hv hm, hc]
    obtain ⟨out, hout⟩ := walletLoop_ok_of_all lib masterKey 50 0 []
      (fun k hk => by simpa using hall k hk)
    refine ⟨out, hout, ?_⟩
    apply hlen
    rw [GenerateWallets_loop lib mnemonic count masterKey hv hm, hc]
    exact hout

/-- C2: a successful call with a positive count returns exactly `count` wallets, and
the wallet at position `k` carries `Index = k`. -/
theorem positive_count_length_and_order (lib : Lib) (mnemonic : String) (count : Int)
    (ws : List Wallet) (hcount : 0 < count)
    (hok : GenerateWallets lib mnemonic count = { wallets := some ws, err := none }) :
    (ws.length : Int) = count ∧
    (∀ (k : Nat) (w : Wallet), ws[k]? = some w → w.Index = (k : Int)) ∧
    (∀ k : Nat, (k : Int) < count → ∃ w, ws[k]? = some w ∧ w.Index = (k : Int)) := by
  obtain ⟨-, mk, -, hl, hall⟩ := (GenerateWallets_ok_iff lib mnemonic count ws).mp hok
  have hc : (effectiveCount count : Int) = count := by
    simp only [effectiveCount, if_neg (not_le.mpr hcount)]
    exact Int.toNat_of_nonneg (le_of_lt hcount)
  have hidx : ∀ (k : Nat) (w : Wallet), ws[k]? = some w → w.Index = (k : Int) := by
    intro k w hk
    obtain ⟨_, _, -, -, hw⟩ := (newWallet_ok_iff lib mk k w).mp (hall k w hk)
    rw [hw]
  refine ⟨by rw [hl, hc], hidx, ?_⟩
  intro k hk
  have hk' : k < ws.length := by
    have : (k : Int) < (ws.length : Int) := by rw [hl, hc]; exact hk
    exact_mod_cast this
  exact ⟨ws[k], List.getElem?_eq_getElem hk', hidx k _ (List.getElem?_eq_getElem hk')⟩

/-- Witness of C1 at the scripted library and `count = -3`. -/
theorem nonpositive_count_yields_fifty_witness :
    (-3 : Int) ≤ 0 ∧
    GenerateWallets (stubLib none true) "seed phrase" (-3) =
      GenerateWallets (stubLib none true) "seed phrase" 50 ∧
    ∃ ws, GenerateWallets (stubLib none true) "seed phrase" (-3) =
        { wallets := some ws, err := none } ∧ ws.length = 50 :=
  ⟨by decide,
   (nonpositive_count_yields_fifty (stubLib none true) "seed phrase" (-3) (by decide)).1,
   (nonpositive_count_yields_fifty (stubLib none true) "seed phrase" (-3) (by decide)).2.1
     _ (by decide) rfl (fun _ _ => ⟨_, rfl⟩)⟩

/-- Witness of C2 at the scripted library and `count = 3`. -/
theorem positive_count_length_and_order_witness :
    ∃ ws, GenerateWallets (stubLib none true) "seed phrase" 3 =
        { wallets := some ws, err := none } ∧
      (0 : Int) < 3 ∧ (ws.length : Int) = 3 ∧
      ∀ (k : Nat) (w : Wallet), ws[k]? = some w → w.Index = (k : Int) :=
  ⟨_, rfl, by decide,
   (positive_count_length_and_order (stubLib none true) "seed phrase" 3 _ (by decide) rfl).1,
   (positive_count_length_and_order (stubLib none true) "seed phrase" 3 _ (by decide) rfl).2.1⟩

/-! ## Validation comes first -/

/-- C3: a mnemonic that fails `bip39.IsMnemonicValid` makes `GenerateWallets` return
the error and no wallets (`nil`) for every count, whatever the seed, master-key,
child-key, key-conversion and address functions are: they are not consulted. -/
theorem invalid_mnemonic_rejected_before_derivation (lib : Lib) (mnemonic : String)
    (count : Int) (hinvalid : lib.IsMnemonicValid mnemonic = false)
    (newSeed : String → String → List Nat)
    (newMasterKey : List Nat → Except String Bip32Key)
    (newChildKey : Bip32Key → Nat → Except String Bip32Key)
    (toECDSA : List Nat → Except String PrivateKey)
    (pubkeyToAddress : PublicKey → Address) :
    GenerateWallets
      { IsMnemonicValid := lib.IsMnemonicValid, NewSeed := newSeed,
        NewMasterKey := newMasterKey, NewChildKey := newChildKey,
        ToECDSA := toECDSA, PubkeyToAddress := pubkeyToAddress } mnemonic count =
      { wallets := none, err := some "invalid mnemonic phrase" } ∧
    GenerateWallets lib mnemonic count =
      { wallets := none, err := some "invalid mnemonic phrase" } :=
  ⟨GenerateWallets_invalid _ mnemonic count hinvalid,
   GenerateWallets_invalid lib mnemonic count hinvalid⟩

/-- Witness of C3: the empty mnemonic, rejected by the scripted validator, with
derivation functions that would all succeed and with ones that would all fail. -/
theorem invalid_mnemonic_rejected_before_derivation_witness :
    (stubLib none true).IsMnemonicValid "" = false ∧
    GenerateWallets
      { IsMnemonicValid := (stubLib none true).IsMnemonicValid,
        NewSeed := fun _ _ => [],
        NewMasterKey := fun _ => .error "no master key",
        NewChildKey := fun _ _ => .error "no child key",
        ToECDSA := fun _ => .error "no private key",
        PubkeyToAddress := fun _ => stubAddress 1 } "" 7 =
      { wallets := none, err := some "invalid mnemonic phrase" } ∧
    GenerateWallets (stubLib none true) "" 7 =
      { wallets := none, err := some "invalid mnemonic phrase" } :=
  ⟨by decide,
   invalid_mnemonic_rejected_before_derivation (stubLib none true) "" 7 (by decide)
     (fun _ _ => []) (fun _ => .error "no master key") (fun _ _ => .error "no child key")
     (fun _ => .error "no private key") (fun _ => stubAddress 1)⟩

/-! ## No partial batch -/

/-- A fold that fails on a prefix of a path fails on the path. -/
theorem foldChildKey_error_of_step (lib : Lib) :
    ∀ (path : List Nat) (key : Bip32Key) (n : Nat) (parent : Bip32Key) (e : Nat) (err : String),
      foldChildKey lib key (path.take n) = .ok parent → path[n]? = some e →
      lib.NewChildKey parent e = .error err →
      ∃ err', foldChildKey lib key path = .error err' := by
  intro path
  induction path with
  | nil => intro key n parent e err _ he; simp at he
  | cons p rest ih =>
    intro key n parent e err hpre he hstep
    cases n with
    | zero =>
      simp only [List.take_zero, foldChildKey, List.foldlM_nil, pure, Except.pure,
        Except.ok.injEq] at hpre
      simp only [List.getElem?_cons_zero, Option.some.injEq] at he
      subst hpre he
      exact ⟨err, by simp [foldChildKey, List.foldlM_cons, bind, Except.bind, hstep]⟩
    | succ n =>
      simp only [List.take_succ_cons, foldChildKey, List.foldlM_cons, bind, Except.bind] at hpre
      simp only [List.getElem?_cons_succ] at he
      cases hp : lib.NewChildKey key p with
      | error err0 => exact ⟨err0, by simp [foldChildKey, List.foldlM_cons, bind, Except.bind, hp]⟩
      | ok c =>
        rw [hp] at hpre
        obtain ⟨err', herr'⟩ := ih c n parent e err hpre he hstep
        exact ⟨err', by simpa [foldChildKey, List.foldlM_cons, bind, Except.bind, hp] using herr'⟩

/-- An iteration fails when its fold over the path fails, or when the derived key is
not accepted as an ECDSA private key. -/
theorem newWallet_error_of_fail (lib : Lib) (masterKey : Bip32Key) (i : Nat)
    (h : (∃ err, foldChildKey lib masterKey (derivationPath i) = .error err) ∨
         (∃ childKey err, foldChildKey lib masterKey (derivationPath i) = .ok childKey ∧
            lib.ToECDSA childKey.Key = .error err)) :
    ∃ msg, newWallet lib masterKey i = .error msg := by
  cases hw : newWallet lib masterKey i with
  | error msg => exact ⟨msg, rfl⟩
  | ok w =>
    exfalso
    obtain ⟨ck, priv, hf, ht, -⟩ := (newWallet_ok_iff lib masterKey i w).mp hw
    rcases h with ⟨err, herr⟩ | ⟨ck', err, hf', ht'⟩
    · rw [hf] at herr
      cases herr
    · rw [hf] at hf'
      cases hf'
      rw [ht] at ht'
      cases ht'

/-- C4: `GenerateWallets` never returns a partial batch.  For a valid mnemonic:
(1) a failing master-key creation gives that error and no wallets;
(2) if at some index `i` of the batch one of the five child-derivation steps fails
(step `n` of the path, after the steps before it succeeded) or the derived key is not
accepted by `crypto.ToECDSA`, the result is an error and no wallets, whatever happened
at the indices below `i`;
(3) a result without error holds a wallet for every requested index;
(4) an error never comes with wallets. -/
theorem no_partial_batch (lib : Lib) (mnemonic : String) (count : Int)
    (hvalid : lib.IsMnemonicValid mnemonic = true) :
    (∀ err, lib.NewMasterKey (lib.NewSeed mnemonic "") = .error err →
      GenerateWallets lib mnemonic count =
        { wallets := none, err := some ("failed to create master key: " ++ err) }) ∧
    (∀ masterKey i, lib.NewMasterKey (lib.NewSeed mnemonic "") = .ok masterKey →
      i < effectiveCount count →
      ((∃ n parent e err, n < 5 ∧
          foldChildKey lib masterKey ((derivationPath i).take n) = .ok parent ∧
          (derivationPath i)[n]? = some e ∧ lib.NewChildKey parent e = .error err) ∨
       (∃ childKey err, foldChildKey lib masterKey (derivationPath i) = .ok childKey ∧
          lib.ToECDSA childKey.Key = .error err)) →
      ∃ msg, GenerateWallets lib mnemonic count = { wallets := none, err := some msg }) ∧
    ((GenerateWallets lib mnemonic count).err = none →
      ∃ ws, (GenerateWallets lib mnemonic count).wallets = some ws ∧
        ws.length = effectiveCount count ∧
        ∀ k, k < effectiveCount count → ∃ w, ws[k]? = some w ∧ w.Index = (k : Int)) ∧
    ((GenerateWallets lib mnemonic count).err ≠ none →
      (GenerateWallets lib mnemonic count).wallets = none) := by
  refine ⟨fun err hm => GenerateWallets_master_error lib mnemonic count err hvalid hm, ?_, ?_, ?_⟩
  · intro masterKey i hm hi hfail
    rw [GenerateWallets_loop lib mnemonic count masterKey hvalid hm]
    have hnw : ∃ msg, newWallet lib masterKey i = .error msg := by
      apply newWallet_error_of_fail
      rcases hfail with ⟨n, parent, e, err, -, hpre, he, hstep⟩ | h
      · exact Or.inl (foldChildKey_error_of_step lib _ masterKey n parent e err hpre he hstep)
      · exact Or.inr h
    obtain ⟨msg, hmsg⟩ := hnw
    exact walletLoop_error_of_fail lib masterKey _ 0 [] i msg hi (by simpa using hmsg)
  · intro herr
    rcases GenerateWallets_shape lib mnemonic count with ⟨out, hout⟩ | ⟨msg, hmsg⟩
    · obtain ⟨-, mk, -, hl, hall⟩ := (GenerateWallets_ok_iff lib mnemonic count out).mp hout
      refine ⟨out, by rw [hout], hl, ?_⟩
      intro k hk
      have hk' : k < out.length := by omega
      refine ⟨out[k], List.getElem?_eq_getElem hk', ?_⟩
      obtain ⟨_, _, -, -, hw⟩ :=
        (newWallet_ok_iff lib mk k _).mp (hall k _ (List.getElem?_eq_getElem hk'))
      rw [hw]
    · rw [hmsg] at herr
      cases herr
  · intro herr
    rcases GenerateWallets_shape lib mnemonic count with ⟨out, hout⟩ | ⟨msg, hmsg⟩
    · rw [hout] at herr
      exact absurd rfl herr
    · rw [hmsg]

/-- Witness of C4: child derivation scripted to fail at path element 2, batch of 5.
Indices 0 and 1 are derived, index 2 fails at its fifth step, and nothing is returned. -/
theorem no_partial_batch_witness :
    (stubLib (some 2) true).IsMnemonicValid "seed phrase" = true ∧
    (∃ w0 w1, newWallet (stubLib (some 2) true)
        { Key := [11, 0], Version := [], ChildNumber := [], FingerPrint := [],
          ChainCode := [], Depth := 0, IsPrivate := true } 0 = .ok w0 ∧
      newWallet (stubLib (some 2) true)
        { Key := [11, 0], Version := [], ChildNumber := [], FingerPrint := [],
          ChainCode := [], Depth := 0, IsPrivate := true } 1 = .ok w1) ∧
    (∃ msg, GenerateWallets (stubLib (some 2) true) "seed phrase" 5 =
      { wallets := none, err := some msg }) :=
  ⟨by decide, ⟨_, _, rfl, rfl⟩,
   (no_partial_batch (stubLib (some 2) true) "seed phrase" 5 (by decide)).2.1
     { Key := [11, 0], Version := [], ChildNumber := [], FingerPrint := [],
       ChainCode := [], Depth := 0, IsPrivate := true } 2 rfl (by decide)
     (Or.inl ⟨4, _, 2, "invalid child", by decide, rfl, rfl, rfl⟩)⟩

/-! ## The wallet of an index -/

/-- In a successful batch the wallet at index `i` is the reference record of the index
`uint32(i)`, with `Index = i`: its key and its address are those of the address index
`i mod 2^32`. -/
theorem wallet_eq_reference_uint32 (lib : Lib) (mnemonic : String) (count : Int)
    (ws : List Wallet) (i : Nat) (w : Wallet)
    (hok : GenerateWallets lib mnemonic count = { wallets := some ws, err := none })
    (hi : ws[i]? = some w) :
    ∃ r, referenceWallet lib mnemonic (uint32 i) = .ok r ∧ w = { r with Index := (i : Int) } := by
  obtain ⟨-, mk, hm, -, hall⟩ := (GenerateWallets_ok_iff lib mnemonic count ws).mp hok
  obtain ⟨ck, priv, hf, ht, hw⟩ := (newWallet_ok_iff lib mk i w).mp (hall i w hi)
  have hf' : foldChildKey lib mk [0x8000002C, 0x8000003C, 0x80000000, 0, uint32 i] = .ok ck := hf
  refine ⟨{ Index := (uint32 i : Int), Address := lib.PubkeyToAddress priv.PublicKey,
            PrivateKey := priv,
            Account := { Address := lib.PubkeyToAddress priv.PublicKey,
                         URL := { Scheme := "", Path := "" } } }, ?_, ?_⟩
  · simp only [referenceWallet, hm, bind, Except.bind, hf', ht, pure, Except.pure]
  · rw [hw]

/-- Below `2^32` the wallet at index `i` of a successful batch is the reference record
`{Index = i, PrivateKey = k, Address = a, Account.Address = a}` of the index `i`:
`k` is the ECDSA private key of the node reached by folding `NewChildKey`, in order,
over the path `[0x8000002C, 0x8000003C, 0x80000000, 0, i]` from the master key of the
seed of the mnemonic with the empty passphrase, and `a` is the address of the public
key of `k`. -/
theorem wallet_eq_reference_of_lt (lib : Lib) (mnemonic : String) (count : Int)
    (ws : List Wallet) (i : Nat) (w : Wallet) (hlt : i < 2 ^ 32)
    (hok : GenerateWallets lib mnemonic count = { wallets := some ws, err := none })
    (hi : ws[i]? = some w) :
    referenceWallet lib mnemonic i = .ok w := by
  obtain ⟨-, mk, hm, -, hall⟩ := (GenerateWallets_ok_iff lib mnemonic count ws).mp hok
  obtain ⟨ck, priv, hf, ht, hw⟩ := (newWallet_ok_iff lib mk i w).mp (hall i w hi)
  have hu : uint32 i = i := Nat.mod_eq_of_lt hlt
  have hf' : foldChildKey lib mk [0x8000002C, 0x8000003C, 0x80000000, 0, i] = .ok ck := by
    have h := hf
    unfold derivationPath at h
    rw [hu] at h
    exact h
  simp only [referenceWallet, hm, bind, Except.bind, hf', ht, pure, Except.pure, hw]

/-- The reference record at index 2 of a batch of 3 at the scripted library. -/
theorem wallet_eq_reference_of_lt_at_2 :
    ∃ ws w, GenerateWallets (stubLib none true) "seed phrase" 3 =
        { wallets := some ws, err := none } ∧ ws[2]? = some w ∧
      referenceWallet (stubLib none true) "seed phrase" 2 = .ok w :=
  ⟨_, _, rfl, rfl,
   wallet_eq_reference_of_lt (stubLib none true) "seed phrase" 3 _ 2 _ (by decide) rfl rfl⟩

/-- C5 at the index `2^32 + 7`, reached by a batch of `2^32 + 8` wallets: the batch at
the scripted library succeeds; its wallet of index `4294967303` is not the reference
record of that index, built over the path `[0x8000002C, 0x8000003C, 0x80000000, 0,
4294967303]`; it is derived over the path whose last element is `uint32(4294967303) = 7`
and carries the private key and the address of the wallet of index 7. -/
theorem wallet_not_reference_at_large_index :
    derivationPath 4294967303 = [0x8000002C, 0x8000003C, 0x80000000, 0x00000000, 7] ∧
    ∃ ws w w7, GenerateWallets (stubLib none true) "seed phrase" 4294967304 =
        { wallets := some ws, err := none } ∧
      ws[4294967303]? = some w ∧ ws[7]? = some w7 ∧
      w.Index = 4294967303 ∧ w7.Index = 7 ∧
      referenceWallet (stubLib none true) "seed phrase" 4294967303 ≠ .ok w ∧
      referenceWallet (stubLib none true) "seed phrase" 7 = .ok w7 ∧
      w.PrivateKey = w7.PrivateKey ∧ w.Address = w7.Address ∧
      w.Account.Address = w7.Account.Address := by
  refine ⟨by decide, ?_⟩
  have hv : (stubLib none true).IsMnemonicValid "seed phrase" = true := by decide
  have hm : (stubLib none true).NewMasterKey ((stubLib none true).NewSeed "seed phrase" "") =
      .ok stubMasterKey := rfl
  have hloop := GenerateWallets_loop (stubLib none true) "seed phrase" 4294967304 _ hv hm
  have hc : effectiveCount 4294967304 = 4294967304 := by decide
  obtain ⟨ws, hws⟩ := walletLoop_ok_of_all (stubLib none true) stubMasterKey 4294967304 0 []
    (fun _ _ => ⟨_, rfl⟩)
  have hok : GenerateWallets (stubLib none true) "seed phrase" 4294967304 =
      { wallets := some ws, err := none } := by
    rw [hloop, hc]
    exact hws
  obtain ⟨new, hnew, hl, hall⟩ :=
    (walletLoop_ok_iff (stubLib none true) stubMasterKey 4294967304 0 [] ws).mp hws
  rw [List.nil_append] at hnew
  subst hnew
  have hlt : 4294967303 < ws.length := by rw [hl]; decide
  have hlt7 : 7 < ws.length := by rw [hl]; decide
  have hget : ws[4294967303]? = some ws[4294967303] := List.getElem?_eq_getElem hlt
  have hget7 : ws[7]? = some ws[7] := List.getElem?_eq_getElem hlt7
  have hw := hall _ _ hget
  have hw7 := hall _ _ hget7
  rw [Nat.zero_add] at hw hw7
  have e : newWallet (stubLib none true) stubMasterKey 4294967303 =
      .ok (stubWalletSeven 4294967303) := by decide
  have e7 : newWallet (stubLib none true) stubMasterKey 7 = .ok (stubWalletSeven 7) := by
    decide
  rw [e] at hw
  rw [e7] at hw7
  have hw' := Except.ok.inj hw
  have hw7' := Except.ok.inj hw7
  refine ⟨ws, ws[4294967303], ws[7], hok, hget, hget7, ?_, ?_, ?_, ?_, ?_, ?_, ?_⟩
  · rw [← hw']; rfl
  · rw [← hw7']; rfl
  · rw [← hw']; decide
  · rw [← hw7']; decide
  · rw [← hw', ← hw7']; rfl
  · rw [← hw', ← hw7']; rfl
  · rw [← hw', ← hw7']; rfl

/-! ## Batch and single derivation agree -/

/-- C7: for counts `0 < n ≤ n'`, if `GenerateWallets(m, n')` succeeds then
`GenerateWallets(m, n)` succeeds and returns the first `n` wallets of the larger batch;
and the wallet at an index `i` of the larger batch is the last wallet of
`GenerateWallets(m, i+1)`: it depends neither on the batch size nor on the other
indices. -/
theorem batch_prefix_consistent (lib : Lib) (mnemonic : String) (n n' : Int)
    (ws' : List Wallet) (hn : 0 < n) (hnn' : n ≤ n')
    (hok : GenerateWallets lib mnemonic n' = { wallets := some ws', err := none }) :
    GenerateWallets lib mnemonic n = { wallets := some (ws'.take n.toNat), err := none } ∧
    (∀ (i : Nat) (w : Wallet), ws'[i]? = some w →
      ∃ single, GenerateWallets lib mnemonic ((i : Int) + 1) =
          { wallets := some single, err := none } ∧
        single.length = i + 1 ∧ single.getLast? = some w) := by
  obtain ⟨hv, mk, hm, hl, hall⟩ := (GenerateWallets_ok_iff lib mnemonic n' ws').mp hok
  have hn' : 0 < n' := lt_of_lt_of_le hn hnn'
  have hc' : effectiveCount n' = n'.toNat := by
    simp [effectiveCount, if_neg (not_le.mpr hn')]
  have hc : effectiveCount n = n.toNat := by
    simp [effectiveCount, if_neg (not_le.mpr hn)]
  have hle : n.toNat ≤ n'.toNat := Int.toNat_le_toNat hnn'
  have pre : ∀ c : Nat, 0 < c → c ≤ ws'.length →
      GenerateWallets lib mnemonic (c : Int) = { wallets := some (ws'.take c), err := none } := by
    intro c hc0 hcl
    rw [GenerateWallets_ok_iff]
    refine ⟨hv, mk, hm, ?_, ?_⟩
    · have : effectiveCount (c : Int) = c := by
        have hpos : ¬ ((c : Int) ≤ 0) := by omega
        unfold effectiveCount
        rw [if_neg hpos]
        exact Int.toNat_natCast c
      rw [this, List.length_take]
      omega
    · intro k w hk
      apply hall k w
      rw [List.getElem?_take] at hk
      split at hk
      · exact hk
      · cases hk
  constructor
  · have := pre n.toNat (by omega) (by rw [hl, hc']; exact hle)
    rwa [Int.toNat_of_nonneg (le_of_lt hn)] at this
  · intro i w hi
    have hil : i < ws'.length := by
      by_contra hcon
      rw [List.getElem?_eq_none (not_lt.mp hcon)] at hi
      cases hi
    have hpre := pre (i + 1) (Nat.succ_pos i) hil
    refine ⟨ws'.take (i + 1), by exact_mod_cast hpre, ?_, ?_⟩
    · rw [List.length_take]; omega
    · rw [List.getLast?_eq_getElem?, List.length_take, List.getElem?_take]
      have : min (i + 1) ws'.length - 1 = i := by omega
      rw [this, if_pos (Nat.lt_succ_self i)]
      exact hi

/-- Witness of C7: the batches of 2 and of 5 at the scripted library. -/
theorem batch_prefix_consistent_witness :
    ∃ ws', GenerateWallets (stubLib none true) "seed phrase" 5 =
        { wallets := some ws', err := none } ∧ (0 : Int) < 2 ∧ (2 : Int) ≤ 5 ∧
      GenerateWallets (stubLib none true) "seed phrase" 2 =
        { wallets := some (ws'.take 2), err := none } :=
  ⟨_, rfl, by decide, by decide,
   (batch_prefix_consistent (stubLib none true) "seed phrase" 2 5 _ (by decide) (by decide)
      rfl).1⟩

/-! ## The shape of the derivation path -/

/-- The path of every index has five elements; the first three are 44, 60 and 0 with
the hardened bit set, the fourth is 0; the fifth is the index itself, and it is
non-hardened, as long as the index is below `2^31`. -/
theorem derivationPath_shape (i : Nat) :
    (derivationPath i).length = 5 ∧
    (derivationPath i).take 4 = [44 ||| 0x80000000, 60 ||| 0x80000000, 0 ||| 0x80000000, 0] ∧
    (∀ e ∈ (derivationPath i).take 3, 2 ^ 31 ≤ e) ∧
    (derivationPath i)[3]? = some 0 ∧
    (derivationPath i)[4]? = some (uint32 i) ∧
    (i < 2 ^ 31 → uint32 i = i ∧ uint32 i < 2 ^ 31) := by
  refine ⟨rfl, ?_, ?_, rfl, rfl, ?_⟩
  · show [0x8000002C, 0x8000003C, 0x80000000, 0x00000000] = _
    decide
  · show ∀ e ∈ [0x8000002C, 0x8000003C, 0x80000000], 2 ^ 31 ≤ e
    decide
  intro hi
  have : uint32 i = i := Nat.mod_eq_of_lt (lt_trans hi (by decide))
  exact ⟨this, by rw [this]; exact hi⟩

/-- C6 at the index `2^31`, reached by a batch of `2^31 + 1` wallets: the fifth path
element is `0x80000000`, a hardened step, so the path has four hardened steps and one
non-hardened step; the batch at the scripted library succeeds and its wallet of index
`2^31` is the one derived along that path. -/
theorem fifth_step_hardened_at_large_index :
    derivationPath 2147483648 =
      [0x8000002C, 0x8000003C, 0x80000000, 0x00000000, 0x80000000] ∧
    (derivationPath 2147483648)[4]? = some (2 ^ 31) ∧
    ¬ (∀ e ∈ (derivationPath 2147483648).drop 3, e < 2 ^ 31) ∧
    ∃ ws w, GenerateWallets (stubLib none true) "seed phrase" 2147483649 =
        { wallets := some ws, err := none } ∧
      ws[2147483648]? = some w ∧ w.Index = 2147483648 ∧
      ∃ masterKey node,
        (stubLib none true).NewMasterKey ((stubLib none true).NewSeed "seed phrase" "") =
          .ok masterKey ∧
        foldChildKey (stubLib none true) masterKey
          [0x8000002C, 0x8000003C, 0x80000000, 0x00000000, 0x80000000] = .ok node ∧
        (stubLib none true).ToECDSA node.Key = .ok w.PrivateKey := by
  refine ⟨by decide, by decide, by decide, ?_⟩
  have hv : (stubLib none true).IsMnemonicValid "seed phrase" = true := by decide
  have hloop := GenerateWallets_loop (stubLib none true) "seed phrase" 2147483649 _ hv rfl
  have hc : effectiveCount 2147483649 = 2147483649 := by decide
  obtain ⟨ws, hws⟩ := walletLoop_ok_of_all (stubLib none true)
    { Key := [11, 0], Version := [], ChildNumber := [], FingerPrint := [],
      ChainCode := [], Depth := 0, IsPrivate := true } 2147483649 0 []
    (fun _ _ => ⟨_, rfl⟩)
  have hok : GenerateWallets (stubLib none true) "seed phrase" 2147483649 =
      { wallets := some ws, err := none } := by
    rw [hloop, hc]
    exact hws
  obtain ⟨-, mk, hm, hl, hall⟩ :=
    (GenerateWallets_ok_iff (stubLib none true) "seed phrase" 2147483649 ws).mp hok
  have hlt : 2147483648 < ws.length := by rw [hl, hc]; decide
  have hget : ws[2147483648]? = some ws[2147483648] := List.getElem?_eq_getElem hlt
  obtain ⟨ck, priv, hf, ht, hw⟩ :=
    (newWallet_ok_iff (stubLib none true) mk 2147483648 _).mp (hall _ _ hget)
  refine ⟨ws, ws[2147483648], hok, hget, by rw [hw]; rfl, mk, ck, hm, hf, ?_⟩
  rw [hw]
  exact ht

/-! ## Digits, bits and groups -/

/-- The digit sequence has the requested width. -/
theorem digitsBE_length (base : Nat) : ∀ (width n : Nat), (digitsBE base width n).length = width := by
  intro width
  induction width with
  | zero => intro n; rfl
  | succ w ih => intro n; simp [digitsBE, ih]

/-- Every digit is below the base. -/
theorem digitsBE_lt (base : Nat) (hb : 0 < base) :
    ∀ (width n : Nat), ∀ d ∈ digitsBE base width n, d < base := by
  intro width
  induction width with
  | zero => intro n d hd; simp [digitsBE] at hd
  | succ w ih =>
    intro n d hd
    simp only [digitsBE, List.mem_append, List.mem_singleton] at hd
    rcases hd with hd | hd
    · exact ih _ d hd
    · rw [hd]; exact Nat.mod_lt _ hb

/-- Appending a digit multiplies by the base and adds the digit. -/
theorem ofDigitsBE_append (base : Nat) (ds : List Nat) (d : Nat) :
    ofDigitsBE base (ds ++ [d]) = ofDigitsBE base ds * base + d := by
  simp [ofDigitsBE, List.foldl_append]

/-- Reading back the `width` digits of `n` gives `n` modulo `base ^ width`. -/
theorem ofDigitsBE_digitsBE (base : Nat) :
    ∀ (width n : Nat), ofDigitsBE base (digitsBE base width n) = n % base ^ width := by
  intro width
  induction width with
  | zero => intro n; simp [digitsBE, ofDigitsBE, Nat.mod_one]
  | succ w ih =>
    intro n
    rw [digitsBE, ofDigitsBE_append, ih, pow_succ', Nat.mod_mul]
    ring

/-- Writing the number of a digit sequence with as many digits gives the sequence back. -/
theorem digitsBE_ofDigitsBE (base : Nat) :
    ∀ (ds : List Nat), (∀ d ∈ ds, d < base) →
      digitsBE base ds.length (ofDigitsBE base ds) = ds := by
  intro ds
  induction ds using List.reverseRecOn with
  | nil => intro _; rfl
  | append_singleton ds d ih =>
    intro h
    have hd : d < base := h d (by simp)
    have hds : ∀ x ∈ ds, x < base := fun x hx => h x (by simp [hx])
    have hb : 0 < base := Nat.lt_of_le_of_lt (Nat.zero_le _) hd
    rw [List.length_append, List.length_singleton, digitsBE, ofDigitsBE_append]
    have h1 : (ofDigitsBE base ds * base + d) / base = ofDigitsBE base ds := by
      rw [Nat.add_comm, Nat.add_mul_div_right _ _ hb, Nat.div_eq_of_lt hd, Nat.zero_add]
    have h2 : (ofDigitsBE base ds * base + d) % base = d := by
      rw [Nat.add_comm, Nat.add_mul_mod_self_right, Nat.mod_eq_of_lt hd]
    rw [h1, h2, ih hds]

/-- Slicing the concatenation of groups of equal size gives the groups back. -/
theorem chunks_flatten {α : Type} (n : Nat) :
    ∀ (xs : List (List α)), (∀ x ∈ xs, x.length = n) → chunks n xs.length xs.flatten = xs := by
  intro xs
  induction xs with
  | nil => intro _; rfl
  | cons x xs ih =>
    intro h
    have hx : x.length = n := h x (by simp)
    have hxs : ∀ y ∈ xs, y.length = n := fun y hy => h y (by simp [hy])
    simp only [List.length_cons, List.flatten_cons, chunks]
    rw [List.take_left' hx, List.drop_left' hx, ih hxs]

/-- Concatenating the groups of a sequence of `n * k` elements gives the sequence back. -/
theorem flatten_chunks {α : Type} (n : Nat) :
    ∀ (k : Nat) (l : List α), l.length = n * k → (chunks n k l).flatten = l := by
  intro k
  induction k with
  | zero =>
    intro l hl
    simp only [Nat.mul_zero] at hl
    simp [chunks, List.length_eq_zero.mp hl]
  | succ k ih =>
    intro l hl
    simp only [chunks, List.flatten_cons]
    rw [ih (l.drop n) (by rw [List.length_drop, hl, Nat.mul_succ]; omega), List.take_append_drop]

/-- Slicing into `k` groups gives `k` groups. -/
theorem chunks_length {α : Type} (n : Nat) :
    ∀ (k : Nat) (l : List α), (chunks n k l).length = k := by
  intro k
  induction k with
  | zero => intro l; rfl
  | succ k ih => intro l; simp [chunks, ih]

/-- Every group of a sequence of `n * k` elements has `n` elements. -/
theorem chunks_mem_length {α : Type} (n : Nat) :
    ∀ (k : Nat) (l : List α), l.length = n * k → ∀ g ∈ chunks n k l, g.length = n := by
  intro k
  induction k with
  | zero => intro l _ g hg; simp [chunks] at hg
  | succ k ih =>
    intro l hl g hg
    simp only [chunks, List.mem_cons] at hg
    rcases hg with hg | hg
    · rw [hg, List.length_take, hl, Nat.mul_succ]; omega
    · exact ih (l.drop n) (by rw [List.length_drop, hl, Nat.mul_succ]; omega) g hg

/-- The elements of a group are elements of the sequence. -/
theorem chunks_mem_subset {α : Type} (n : Nat) :
    ∀ (k : Nat) (l : List α), ∀ g ∈ chunks n k l, ∀ x ∈ g, x ∈ l := by
  intro k
  induction k with
  | zero => intro l g hg; simp [chunks] at hg
  | succ k ih =>
    intro l g hg x hx
    simp only [chunks, List.mem_cons] at hg
    rcases hg with hg | hg
    · rw [hg] at hx; exact List.mem_of_mem_take hx
    · exact List.mem_of_mem_drop (ih (l.drop n) g hg x hx)

/-- A byte sequence has eight bits per byte. -/
theorem bytesToBits_length (bytes : List Nat) : (bytesToBits bytes).length = 8 * bytes.length := by
  induction bytes with
  | nil => rfl
  | cons b bs ih =>
    simp only [bytesToBits, List.map_cons, List.flatten_cons, List.length_append,
      digitsBE_length, List.length_cons] at ih ⊢
    rw [ih]; ring

/-- The elements of a bit-stream are bits. -/
theorem bytesToBits_lt (bytes : List Nat) : ∀ b ∈ bytesToBits bytes, b < 2 := by
  intro b hb
  simp only [bytesToBits, List.mem_flatten, List.mem_map] at hb
  obtain ⟨l, ⟨x, -, rfl⟩, hbl⟩ := hb
  exact digitsBE_lt 2 (by decide) 8 x b hbl

/-- Bytes are recovered from their bit-stream. -/
theorem groups_bytesToBits (bytes : List Nat) (hbytes : ∀ b ∈ bytes, b < 256) :
    (groups 8 (bytesToBits bytes)).map (ofDigitsBE 2) = bytes := by
  have hlen : (bytesToBits bytes).length / 8 = (bytes.map (digitsBE 2 8)).length := by
    rw [bytesToBits_length, List.length_map]; omega
  unfold groups
  rw [hlen]
  unfold bytesToBits
  rw [chunks_flatten 8 _ (by
    intro x hx
    simp only [List.mem_map] at hx
    obtain ⟨b, -, rfl⟩ := hx
    exact digitsBE_length 2 8 b)]
  rw [List.map_map]
  conv_rhs => rw [← List.map_id bytes]
  apply List.map_congr_left
  intro b hb
  simp only [Function.comp_apply, id_eq, ofDigitsBE_digitsBE]
  exact Nat.mod_eq_of_lt (hbytes b hb)

/-! ## The mnemonic codec -/

/-- Reading a run of non-blank characters extends the current word by it. -/
theorem splitWords_word (w : List Char) (hw : ∀ c ∈ w, c.isWhitespace = false) :
    ∀ (cur rest : List Char), splitWords cur (w ++ rest) = splitWords (cur ++ w) rest := by
  induction w with
  | nil => intro cur rest; simp
  | cons c w ih =>
    intro cur rest
    have hc : c.isWhitespace = false := hw c (by simp)
    have hw' : ∀ x ∈ w, x.isWhitespace = false := fun x hx => hw x (by simp [hx])
    have hstep : splitWords cur (c :: (w ++ rest)) = splitWords (cur ++ [c]) (w ++ rest) := by
      simp only [splitWords, hc, Bool.false_eq_true, ↓reduceIte]
    rw [List.cons_append, hstep, ih hw', List.append_assoc]
    rfl

/-- Splitting the string of a word sequence gives the words back, when no word is empty or holds a blank. -/
theorem splitWords_joinWords :
    ∀ (ws : List (List Char)), (∀ w ∈ ws, w ≠ [] ∧ ∀ c ∈ w, c.isWhitespace = false) →
      splitWords [] (joinWords ws) = ws := by
  intro ws
  induction ws with
  | nil => intro _; rfl
  | cons w ws ih =>
    intro h
    obtain ⟨hne, hw⟩ := h w (by simp)
    cases ws with
    | nil =>
      have := splitWords_word w hw [] []
      simp only [List.append_nil, List.nil_append] at this
      simp only [joinWords, this, splitWords, hne, ↓reduceIte]
    | cons w' ws' =>
      have hrest := ih (fun x hx => h x (by simp [hx]))
      have hsp : (' ' : Char).isWhitespace = true := by decide
      simp only [joinWords] at hrest ⊢
      rw [splitWords_word w hw [] _, List.nil_append]
      simp only [splitWords, hsp, ↓reduceIte, hne]
      rw [hrest]

/-- No position is reported when every word is in the dictionary. -/
theorem firstUnknown_none (dictionary : List String) :
    ∀ (ws : List String) (position : Nat), (∀ w ∈ ws, w ∈ dictionary) →
      firstUnknown dictionary position ws = none := by
  intro ws
  induction ws with
  | nil => intro _ _; rfl
  | cons w ws ih =>
    intro position h
    have hw : dictionary.contains w = true := by
      simpa using h w (by simp)
    simp only [firstUnknown, hw, ↓reduceIte]
    exact ih (position + 1) (fun x hx => h x (by simp [hx]))

/-- The checksum of an entropy of at most 128 bytes has `entropy_bits / 32` bits. -/
theorem checksum_length (c : Codec) (hc : c.WellFormed) (entropy : List Nat)
    (hlen : entropy.length ≤ 128) :
    (checksum c entropy).length = entropy.length * 8 / 32 := by
  unfold checksum
  rw [List.length_take, bytesToBits_length, hc.hashSize]
  omega

/-- Round trip of the codec: for every permitted entropy size, the encoding of an entropy
decodes back to it with a matching checksum; it has three words for every four bytes,
all of them words of the dictionary. -/
theorem decode_encode (c : Codec) (hc : c.WellFormed) (entropy : List Nat)
    (hlen : entropy.length * 8 ∈ [128, 160, 192, 224, 256])
    (hbytes : ∀ b ∈ entropy, b < 256) :
    ∃ m, encode c entropy = .ok m ∧ decodeAndValidate c m = .ok entropy ∧
      (mnemonicWords m).length = entropy.length * 3 / 4 ∧
      ∀ w ∈ mnemonicWords m, w ∈ c.dictionary := by
  have hL : entropy.length = 16 ∨ entropy.length = 20 ∨ entropy.length = 24 ∨
      entropy.length = 28 ∨ entropy.length = 32 := by
    simp only [List.mem_cons, List.mem_singleton, List.not_mem_nil, or_false] at hlen
    omega
  -- the combined bit-stream
  have hcl := checksum_length c hc entropy (by omega)
  have hbl := bytesToBits_length entropy
  obtain ⟨bits, hbits⟩ : ∃ bits, bits = bytesToBits entropy ++ checksum c entropy := ⟨_, rfl⟩
  have hbitsLen : bits.length = 11 * (entropy.length * 3 / 4) := by
    rw [hbits, List.length_append, hcl, hbl]; omega
  have hk : bits.length / 11 = entropy.length * 3 / 4 := by rw [hbitsLen]; omega
  have hbit2 : ∀ b ∈ bits, b < 2 := by
    intro b hb
    rw [hbits, List.mem_append] at hb
    rcases hb with hb | hb
    · exact bytesToBits_lt _ b hb
    · exact bytesToBits_lt _ b (List.mem_of_mem_take hb)
  -- the groups and the words
  obtain ⟨G, hG⟩ : ∃ G, G = groups 11 bits := ⟨_, rfl⟩
  have hGc : G = chunks 11 (entropy.length * 3 / 4) bits := by rw [hG, groups, hk]
  have hGlen : G.length = entropy.length * 3 / 4 := by rw [hGc, chunks_length]
  have hGmem : ∀ g ∈ G, g.length = 11 ∧ ∀ b ∈ g, b < 2 := by
    intro g hg
    rw [hGc] at hg
    exact ⟨chunks_mem_length 11 _ bits hbitsLen g hg,
      fun b hb => hbit2 b (chunks_mem_subset 11 _ bits g hg b hb)⟩
  have hGidx : ∀ g ∈ G, ofDigitsBE 2 g < c.dictionary.length := by
    intro g hg
    obtain ⟨hgl, hgb⟩ := hGmem g hg
    have := digitsBE_ofDigitsBE 2 g hgb
    have hmod := ofDigitsBE_digitsBE 2 g.length (ofDigitsBE 2 g)
    rw [this] at hmod
    rw [hc.size, hmod, hgl]
    exact Nat.mod_lt _ (by decide)
  obtain ⟨words, hwords⟩ :
      ∃ words, words = G.map (fun g => c.dictionary.getD (ofDigitsBE 2 g) "") := ⟨_, rfl⟩
  have hwmem : ∀ w ∈ words, w ∈ c.dictionary := by
    intro w hw
    rw [hwords, List.mem_map] at hw
    obtain ⟨g, hg, rfl⟩ := hw
    rw [List.getD_eq_getElem _ _ (hGidx g hg)]
    exact List.getElem_mem _
  have hsplit : mnemonicWords (String.mk (joinWords (words.map String.data))) = words := by
    unfold mnemonicWords
    rw [splitWords_joinWords]
    · rw [List.map_map]
      conv_rhs => rw [← List.map_id words]
      rfl
    · intro w hw
      rw [List.mem_map] at hw
      obtain ⟨s, hs, rfl⟩ := hw
      exact hc.words s (hwmem s hs)
  have hback : (words.map (fun w => digitsBE 2 11 (c.dictionary.indexOf w))).flatten = bits := by
    rw [hwords, List.map_map]
    have : G.map ((fun w => digitsBE 2 11 (c.dictionary.indexOf w)) ∘
        (fun g => c.dictionary.getD (ofDigitsBE 2 g) "")) = G := by
      conv_rhs => rw [← List.map_id G]
      apply List.map_congr_left
      intro g hg
      obtain ⟨hgl, hgb⟩ := hGmem g hg
      simp only [Function.comp_apply, id_eq]
      rw [List.getD_eq_getElem _ _ (hGidx g hg), List.indexOf_getElem hc.nodup, ← hgl]
      exact digitsBE_ofDigitsBE 2 g hgb
    rw [this, hGc]
    exact flatten_chunks 11 _ bits hbitsLen
  refine ⟨String.mk (joinWords (words.map String.data)), ?_, ?_, ?_, ?_⟩
  · simp only [encode, hlen, ↓reduceIte, ← hbits, ← hG, ← hwords]
  · have hwl : words.length = entropy.length * 3 / 4 := by rw [hwords, List.length_map, hGlen]
    have hcount : words.length ∈ [12, 15, 18, 21, 24] := by
      simp only [List.mem_cons, List.mem_singleton, List.not_mem_nil, or_false]
      omega
    have hent : words.length * 32 / 3 = (bytesToBits entropy).length := by
      rw [hwl, hbl]; omega
    have htake : bits.take (bytesToBits entropy).length = bytesToBits entropy := by
      rw [hbits]; exact List.take_left' rfl
    have hdrop : bits.drop (bytesToBits entropy).length = checksum c entropy := by
      rw [hbits]; exact List.drop_left' rfl
    simp only [decodeAndValidate, hsplit, firstUnknown_none c.dictionary words 0 hwmem,
      hcount, ↓reduceIte, hback, hent, htake, hdrop, groups_bytesToBits entropy hbytes]
  · rw [hsplit, hwords, List.length_map, hGlen]
  · rw [hsplit]; exact hwmem

/-! ## Hexadecimal strings -/

/-- The digit written for a nibble has the value of the nibble. -/
theorem hexValue_hexDigits : ∀ n, n < 16 → hexValue (hexDigits.getD n '0') = some n := by
  decide

/-- The digit written for a nibble is one of the sixteen lowercase digits. -/
theorem hexDigits_getD_mem : ∀ n, n < 16 → hexDigits.getD n '0' ∈ hexDigits := by
  decide

/-- Putting a letter digit in upper case keeps its value. -/
theorem hexValue_checksumCase_upper :
    ∀ c ∈ hexDigits, hexValue (if '9' < c then Char.ofNat (c.toNat - 32) else c) = hexValue c := by
  decide

/-- The format `%x` writes two characters per byte. -/
theorem sprintfHex_length (bytes : List Nat) : (sprintfHex bytes).length = 2 * bytes.length := by
  show (List.flatten _).length = _
  induction bytes with
  | nil => rfl
  | cons b bs ih =>
    simp only [List.map_cons, List.flatten_cons, List.length_append, List.length_cons,
      List.length_nil, ih]
    omega

/-- The format `%x` writes lowercase hexadecimal digits only. -/
theorem sprintfHex_mem (bytes : List Nat) (hbytes : ∀ b ∈ bytes, b < 256) :
    ∀ c ∈ (sprintfHex bytes).data, c ∈ hexDigits := by
  intro c hc
  simp only [sprintfHex, List.mem_flatten, List.mem_map] at hc
  obtain ⟨l, ⟨b, hb, rfl⟩, hcl⟩ := hc
  have hlt := hbytes b hb
  simp only [List.mem_cons, List.mem_singleton, List.not_mem_nil, or_false] at hcl
  rcases hcl with rfl | rfl
  · exact hexDigits_getD_mem _ (by omega)
  · exact hexDigits_getD_mem _ (by omega)

/-- The string written by `%x` reads back as the bytes. -/
theorem decodeHex_sprintfHex (bytes : List Nat) (hbytes : ∀ b ∈ bytes, b < 256) :
    decodeHex (sprintfHex bytes).data = some bytes := by
  show decodeHex (List.flatten _) = _
  induction bytes with
  | nil => simp [decodeHex]
  | cons b bs ih =>
    have hb : b < 256 := hbytes b (by simp)
    have ih' := ih (fun x hx => hbytes x (by simp [hx]))
    have hcons : ∀ (x y : Char) (rest : List Char), ([x, y] ++ rest) = x :: y :: rest :=
      fun _ _ _ => rfl
    have : b / 16 * 16 + b % 16 = b := Nat.div_add_mod' b 16
    rw [List.map_cons, List.flatten_cons, hcons, decodeHex,
      hexValue_hexDigits (b / 16) (by omega), hexValue_hexDigits (b % 16) (by omega), ih']
    simp only [this]

/-- The case rule keeps the number of digits. -/
theorem applyChecksum_length (hashNibbles : List Nat) :
    ∀ (l : List Char) (i : Nat), (applyChecksum hashNibbles i l).length = l.length := by
  intro l
  induction l with
  | nil => intro i; rfl
  | cons c cs ih => intro i; simp [applyChecksum, ih]

/-- The case rule keeps the value of a digit. -/
theorem hexValue_checksumCase (n : Nat) (c : Char) (hc : c ∈ hexDigits) :
    hexValue (checksumCase n c) = hexValue c := by
  unfold checksumCase
  by_cases hn : 7 < n
  · simpa [hn] using hexValue_checksumCase_upper c hc
  · simp [hn]

/-- The case rule keeps the value of every digit of a string. -/
theorem applyChecksum_hexValue (hashNibbles : List Nat) :
    ∀ (l : List Char) (i : Nat), (∀ c ∈ l, c ∈ hexDigits) →
      (applyChecksum hashNibbles i l).map hexValue = l.map hexValue := by
  intro l
  induction l with
  | nil => intro i _; rfl
  | cons c cs ih =>
    intro i h
    simp only [applyChecksum, List.map_cons]
    rw [hexValue_checksumCase _ c (h c (by simp)), ih (i + 1) (fun x hx => h x (by simp [hx]))]

/-- Two strings whose characters have the same values read as the same bytes. -/
theorem decodeHex_congr :
    ∀ (n : Nat) (l₁ l₂ : List Char), l₁.length ≤ n → l₁.map hexValue = l₂.map hexValue →
      decodeHex l₁ = decodeHex l₂ := by
  intro n
  induction n using Nat.strong_induction_on with
  | _ n ih =>
    intro l₁ l₂ hlen h
    have hl : l₁.length = l₂.length := by
      have := congrArg List.length h
      simpa using this
    match l₁, l₂, h, hl with
    | [], [], _, _ => rfl
    | [_], [_], _, _ => rfl
    | a :: b :: r₁, c :: d :: r₂, h, _ =>
      simp only [List.map_cons, List.cons.injEq] at h
      obtain ⟨ha, hb, hr⟩ := h
      simp only [List.length_cons] at hlen
      have := ih (n - 2) (by omega) r₁ r₂ (by omega) hr
      simp only [decodeHex, ha, hb, this]
    | [], _ :: _, _, hl => simp at hl
    | _ :: _, [], _, hl => simp at hl
    | [_], _ :: _ :: _, _, hl => simp at hl
    | _ :: _ :: _, [_], _, hl => simp at hl

/-! ## The scripted codec is well formed -/

/-- The scripted words of two indices below 2048 differ. -/
theorem stubWord_injOn : ∀ x ∈ List.range 2048, ∀ y ∈ List.range 2048,
    stubWord x = stubWord y → x = y := by
  intro x hx y hy h
  rw [List.mem_range] at hx hy
  have hmap : ∀ l : List Nat, (∀ b ∈ l, b < 2) →
      (l.map (fun b => if b = 0 then 'a' else 'b')).map (fun c => if c = 'a' then 0 else 1) = l := by
    intro l hl
    rw [List.map_map]
    conv_rhs => rw [← List.map_id l]
    apply List.map_congr_left
    intro b hb
    have := hl b hb
    interval_cases b <;> simp
  have hdata : (digitsBE 2 11 x).map (fun b => if b = 0 then 'a' else 'b') =
      (digitsBE 2 11 y).map (fun b => if b = 0 then 'a' else 'b') := by
    have := congrArg String.data h
    exact this
  have hd := congrArg (List.map (fun c => if c = 'a' then 0 else 1)) hdata
  rw [hmap _ (digitsBE_lt 2 (by decide) 11 x), hmap _ (digitsBE_lt 2 (by decide) 11 y)] at hd
  have := congrArg (ofDigitsBE 2) hd
  rw [ofDigitsBE_digitsBE, ofDigitsBE_digitsBE] at this
  have e : (2 : Nat) ^ 11 = 2048 := by decide
  rw [e, Nat.mod_eq_of_lt hx, Nat.mod_eq_of_lt hy] at this
  exact this

/-- The scripted dictionary has 2048 words. -/
theorem stubDictionary_length : stubDictionary.length = 2048 := by
  unfold stubDictionary
  rw [List.length_map, List.length_range]

/-- The scripted dictionary has no word twice. -/
theorem stubDictionary_nodup : stubDictionary.Nodup := by
  unfold stubDictionary
  exact List.Nodup.map_on stubWord_injOn (List.nodup_range 2048)

/-- No scripted word is empty or holds a blank. -/
theorem stubDictionary_words :
    ∀ w ∈ stubDictionary, w.data ≠ [] ∧ ∀ ch ∈ w.data, ch.isWhitespace = false := by
  intro w hw
  unfold stubDictionary at hw
  rw [List.mem_map] at hw
  obtain ⟨i, -, rfl⟩ := hw
  constructor
  · intro hnil
    have := congrArg List.length hnil
    simp [stubWord, digitsBE_length] at this
  · intro ch hch
    simp only [stubWord, List.mem_map] at hch
    obtain ⟨b, -, rfl⟩ := hch
    split <;> decide

/-- The scripted codec is well formed. -/
theorem stubCodec_wellFormed : stubCodec.WellFormed where
  size := by
    simp only [stubCodec]
    exact stubDictionary_length
  nodup := by
    simp only [stubCodec]
    exact stubDictionary_nodup
  words := by
    simp only [stubCodec]
    exact stubDictionary_words
  hashSize := fun _ => List.length_replicate _ _

/-! ## The error for an unknown word -/

/-- A position is reported when some word is not in the dictionary. -/
theorem firstUnknown_some (dictionary : List String) :
    ∀ (ws : List String) (position : Nat), (∃ w ∈ ws, w ∉ dictionary) →
      ∃ q, firstUnknown dictionary position ws = some q := by
  intro ws
  induction ws with
  | nil => intro _ h; obtain ⟨w, hw, -⟩ := h; simp at hw
  | cons x xs ih =>
    intro position h
    by_cases hx : dictionary.contains x = true
    · obtain ⟨w, hw, hnot⟩ := h
      have hwx : w ∈ xs := by
        rcases List.mem_cons.mp hw with rfl | hmem
        · exact absurd (by simpa using hx) hnot
        · exact hmem
      simp only [firstUnknown, hx, ↓reduceIte]
      exact ih (position + 1) ⟨w, hwx, hnot⟩
    · exact ⟨position, by simp only [firstUnknown, hx, Bool.false_eq_true, ↓reduceIte]⟩

/-- A mnemonic with a word outside the dictionary is not valid. -/
theorem isMnemonicValid_unknown (c : Codec) (mnemonic : String)
    (h : ∃ w ∈ mnemonicWords mnemonic, w ∉ c.dictionary) :
    (∃ position, decodeAndValidate c mnemonic = .error (.UnknownWord position)) ∧
    isMnemonicValid c mnemonic = false := by
  obtain ⟨q, hq⟩ := firstUnknown_some c.dictionary (mnemonicWords mnemonic) 0 h
  have hd : decodeAndValidate c mnemonic = .error (.UnknownWord q) := by
    simp only [decodeAndValidate, hq]
  exact ⟨⟨q, hd⟩, by simp only [isMnemonicValid, hd]⟩

/-- C8, as the code has it: when the validator is the one of the codec, a mnemonic with a
word that is not in the dictionary makes `GenerateWallets` return no wallets and the one
error `invalid mnemonic phrase`; every other rejected mnemonic (wrong word count, bad
checksum, an unknown word at another position) gets the very same result. -/
theorem unknown_word_generic_error (lib : Lib) (c : Codec)
    (hval : ∀ m, lib.IsMnemonicValid m = isMnemonicValid c m)
    (mnemonic : String) (count : Int)
    (hunknown : ∃ w ∈ mnemonicWords mnemonic, w ∉ c.dictionary) :
    GenerateWallets lib mnemonic count =
      { wallets := none, err := some "invalid mnemonic phrase" } ∧
    (∀ (other : String) (count' : Int), isMnemonicValid c other = false →
      GenerateWallets lib other count' = GenerateWallets lib mnemonic count) := by
  have hinv : lib.IsMnemonicValid mnemonic = false := by
    rw [hval]; exact (isMnemonicValid_unknown c mnemonic hunknown).2
  refine ⟨GenerateWallets_invalid lib mnemonic count hinv, ?_⟩
  intro other count' hother
  rw [GenerateWallets_invalid lib mnemonic count hinv,
    GenerateWallets_invalid lib other count' (by rw [hval]; exact hother)]

set_option maxRecDepth 100000 in
/-- Witness of the amended C8: the unknown word `zzz` in first position. -/
theorem unknown_word_generic_error_witness :
    (∃ w ∈ mnemonicWords unknownFirst, w ∉ stubCodec.dictionary) ∧
    GenerateWallets (codecLib stubCodec) unknownFirst 1 =
      { wallets := none, err := some "invalid mnemonic phrase" } :=
  ⟨⟨"zzz", by decide!, by decide!⟩,
   (unknown_word_generic_error (codecLib stubCodec) stubCodec (fun _ => rfl) unknownFirst 1
      ⟨"zzz", by decide!, by decide!⟩).1⟩

set_option maxRecDepth 100000 in
/-- C8 fails as stated: an unknown word in first position, one in second position, a
wrong word count and a bad checksum are told apart by the validator of the codec, but
`GenerateWallets` answers all four with the same value, so nothing in its result
identifies the position of the unknown word or tells the three kinds of error apart. -/
theorem unknown_word_position_not_reported :
    decodeAndValidate stubCodec unknownFirst = .error (.UnknownWord 0) ∧
    decodeAndValidate stubCodec unknownSecond = .error (.UnknownWord 1) ∧
    decodeAndValidate stubCodec twoWords = .error .InvalidWordCount ∧
    decodeAndValidate stubCodec badChecksum = .error .ChecksumMismatch ∧
    GenerateWallets (codecLib stubCodec) unknownFirst 1 =
      { wallets := none, err := some "invalid mnemonic phrase" } ∧
    GenerateWallets (codecLib stubCodec) unknownSecond 1 =
      GenerateWallets (codecLib stubCodec) unknownFirst 1 ∧
    GenerateWallets (codecLib stubCodec) twoWords 1 =
      GenerateWallets (codecLib stubCodec) unknownFirst 1 ∧
    GenerateWallets (codecLib stubCodec) badChecksum 1 =
      GenerateWallets (codecLib stubCodec) unknownFirst 1 ∧
    ¬ ∃ position : WalletsResult → Nat,
        position (GenerateWallets (codecLib stubCodec) unknownFirst 1) = 0 ∧
        position (GenerateWallets (codecLib stubCodec) unknownSecond 1) = 1 := by
  have d0 : decodeAndValidate stubCodec unknownFirst = .error (.UnknownWord 0) := by
    decide!
  have d1 : decodeAndValidate stubCodec unknownSecond = .error (.UnknownWord 1) := by
    decide!
  have d2 : decodeAndValidate stubCodec twoWords = .error .InvalidWordCount := by
    decide!
  have d3 : decodeAndValidate stubCodec badChecksum = .error .ChecksumMismatch := by
    decide!
  have v : ∀ m e, decodeAndValidate stubCodec m = .error e →
      GenerateWallets (codecLib stubCodec) m 1 =
        { wallets := none, err := some "invalid mnemonic phrase" } := by
    intro m e h
    apply GenerateWallets_invalid
    show isMnemonicValid stubCodec m = false
    simp only [isMnemonicValid, h]
  refine ⟨d0, d1, d2, d3, v _ _ d0, ?_, ?_, ?_, ?_⟩
  · rw [v _ _ d1, v _ _ d0]
  · rw [v _ _ d2, v _ _ d0]
  · rw [v _ _ d3, v _ _ d0]
  · rintro ⟨position, h0, h1⟩
    rw [v _ _ d0] at h0
    rw [v _ _ d1, h0] at h1
    cases h1

/-! ## The hexadecimal strings of a wallet -/

/-- The private key of a wallet of a successful batch is a result of `crypto.ToECDSA`. -/
theorem wallet_key_from_ToECDSA (lib : Lib) (mnemonic : String) (count : Int)
    (ws : List Wallet) (w : Wallet)
    (hok : GenerateWallets lib mnemonic count = { wallets := some ws, err := none })
    (hw : w ∈ ws) : ∃ key, lib.ToECDSA key = .ok w.PrivateKey := by
  obtain ⟨-, mk, -, -, hall⟩ := (GenerateWallets_ok_iff lib mnemonic count ws).mp hok
  obtain ⟨k, hk, hget⟩ := List.getElem_of_mem hw
  have hget' : ws[k]? = some w := by rw [List.getElem?_eq_getElem hk, hget]
  obtain ⟨ck, priv, -, ht, hwdef⟩ := (newWallet_ok_iff lib mk k w).mp (hall k w hget')
  exact ⟨ck.Key, by rw [hwdef]; exact ht⟩

/-- The string of `GetPrivateKeyHex` for a scalar below `2^256`. -/
theorem GetPrivateKeyHex_spec (w : Wallet) (hD : w.PrivateKey.D < 2 ^ 256) :
    (GetPrivateKeyHex w).length = 64 ∧
    (∀ ch ∈ (GetPrivateKeyHex w).data, ch ∈ hexDigits) ∧
    (GetPrivateKeyHex w).data.take 2 ≠ ['0', 'x'] ∧
    ∃ bytes, decodeHex (GetPrivateKeyHex w).data = some bytes ∧ bytes.length = 32 ∧
      ofDigitsBE 256 bytes = w.PrivateKey.D := by
  have hbytes : ∀ b ∈ FromECDSA w.PrivateKey, b < 256 :=
    digitsBE_lt 256 (by decide) 32 _
  have hlen : (FromECDSA w.PrivateKey).length = 32 := digitsBE_length 256 32 _
  have hmem := sprintfHex_mem (FromECDSA w.PrivateKey) hbytes
  refine ⟨?_, hmem, ?_, FromECDSA w.PrivateKey, decodeHex_sprintfHex _ hbytes, hlen, ?_⟩
  · show (sprintfHex _).length = 64
    rw [sprintfHex_length, hlen]
  · intro hpre
    have hx : 'x' ∈ (GetPrivateKeyHex w).data := by
      apply List.mem_of_mem_take (n := 2)
      rw [hpre]
      simp
    have := hmem 'x' hx
    revert this
    decide
  · show ofDigitsBE 256 (digitsBE 256 32 w.PrivateKey.D) = _
    rw [ofDigitsBE_digitsBE]
    exact Nat.mod_eq_of_lt (by simpa using hD)

/-- The string of `GetAddressHex`. -/
theorem GetAddressHex_spec (keccak : List Nat → List Nat) (w : Wallet) :
    (GetAddressHex keccak w).length = 42 ∧
    ∃ digits, (GetAddressHex keccak w).data = '0' :: 'x' :: digits ∧ digits.length = 40 ∧
      (∀ ch ∈ digits, ∃ v, hexValue ch = some v ∧ v < 16) ∧
      decodeHex digits = some w.Address.val := by
  obtain ⟨hal, hab⟩ := w.Address.property
  have hlow := sprintfHex_mem w.Address.val hab
  have hlowlen : (sprintfHex w.Address.val).data.length = 40 := by
    have := sprintfHex_length w.Address.val
    rw [hal] at this
    exact this
  obtain ⟨nib, hnib⟩ : ∃ nib, nib =
      ((keccak ((sprintfHex w.Address.val).data.map Char.toNat)).map
        (fun b => [b / 16, b % 16])).flatten := ⟨_, rfl⟩
  have hdata : (GetAddressHex keccak w).data =
      '0' :: 'x' :: applyChecksum nib 0 (sprintfHex w.Address.val).data := by
    rw [hnib]; rfl
  have hdl : (applyChecksum nib 0 (sprintfHex w.Address.val).data).length = 40 := by
    rw [applyChecksum_length, hlowlen]
  have hmap := applyChecksum_hexValue nib (sprintfHex w.Address.val).data 0 hlow
  refine ⟨?_, _, hdata, hdl, ?_, ?_⟩
  · show (GetAddressHex keccak w).data.length = 42
    rw [hdata, List.length_cons, List.length_cons, hdl]
  · intro ch hch
    have hin : hexValue ch ∈ (applyChecksum nib 0 (sprintfHex w.Address.val).data).map hexValue :=
      List.mem_map_of_mem _ hch
    rw [hmap, List.mem_map] at hin
    obtain ⟨c0, hc0, hval⟩ := hin
    have : ∀ c ∈ hexDigits, ∃ v, hexValue c = some v ∧ v < 16 := by decide
    obtain ⟨v, hv, hlt⟩ := this c0 (hlow c0 hc0)
    exact ⟨v, by rw [← hval, hv], hlt⟩
  · rw [decodeHex_congr _ _ _ (le_refl _) hmap]
    exact decodeHex_sprintfHex _ hab

/-- C9: for every wallet returned by `GenerateWallets` (the scalars accepted by
`crypto.ToECDSA` being below `2^256`), `GetPrivateKeyHex` returns exactly 64 lowercase
hexadecimal digits, without a `0x` prefix, that write the 32 bytes of the private
scalar, most significant first; `GetAddressHex` returns a string of length 42, `0x`
followed by 40 hexadecimal digits that write the 20 bytes of the address. -/
theorem wallet_hex_strings (lib : Lib) (mnemonic : String) (count : Int)
    (keccak : List Nat → List Nat) (ws : List Wallet) (w : Wallet)
    (hscalar : ∀ key priv, lib.ToECDSA key = .ok priv → priv.D < 2 ^ 256)
    (hok : GenerateWallets lib mnemonic count = { wallets := some ws, err := none })
    (hw : w ∈ ws) :
    ((GetPrivateKeyHex w).length = 64 ∧
      (∀ ch ∈ (GetPrivateKeyHex w).data, ch ∈ hexDigits) ∧
      (GetPrivateKeyHex w).data.take 2 ≠ ['0', 'x'] ∧
      ∃ bytes, decodeHex (GetPrivateKeyHex w).data = some bytes ∧ bytes.length = 32 ∧
        ofDigitsBE 256 bytes = w.PrivateKey.D) ∧
    ((GetAddressHex keccak w).length = 42 ∧
      ∃ digits, (GetAddressHex keccak w).data = '0' :: 'x' :: digits ∧ digits.length = 40 ∧
        (∀ ch ∈ digits, ∃ v, hexValue ch = some v ∧ v < 16) ∧
        decodeHex digits = some w.Address.val) := by
  obtain ⟨key, hkey⟩ := wallet_key_from_ToECDSA lib mnemonic count ws w hok hw
  exact ⟨GetPrivateKeyHex_spec w (hscalar key _ hkey), GetAddressHex_spec keccak w⟩

/-- Witness of C9: the wallet of index 10 of a batch of 11 at the scripted library, with
a hash stand-in whose nibbles are all above 7. -/
theorem wallet_hex_strings_witness :
    ∃ ws w, GenerateWallets (stubLib none true) "seed phrase" 11 =
        { wallets := some ws, err := none } ∧ ws[10]? = some w ∧
      GetPrivateKeyHex w =
        "000000000000000000000000000000000000000000000000000000000000000a" ∧
      GetAddressHex (fun _ => List.replicate 32 170) w =
        "0x0A0A0A0A0A0A0A0A0A0A0A0A0A0A0A0A0A0A0A0A" ∧
      (GetPrivateKeyHex w).length = 64 ∧
      (GetAddressHex (fun _ => List.replicate 32 170) w).length = 42 :=
  ⟨_, _, rfl, rfl, by decide, by decide,
   (wallet_hex_strings (stubLib none true) "seed phrase" 11 (fun _ => List.replicate 32 170)
      _ _ (fun key priv h => by
        cases h
        exact Nat.mod_lt _ (by decide)) rfl (List.getElem?_mem (n := 10) rfl)).1.1,
   (wallet_hex_strings (stubLib none true) "seed phrase" 11 (fun _ => List.replicate 32 170)
      _ _ (fun key priv h => by
        cases h
        exact Nat.mod_lt _ (by decide)) rfl (List.getElem?_mem (n := 10) rfl)).2.1⟩

/-! ## Generated mnemonics -/

/-- A message that starts with a literal starts with the first character of the literal. -/
theorem head_append (a b : String) (ch : Char) (h : a.data.head? = some ch) :
    (a ++ b).data.head? = some ch := by
  rw [String.data_append]
  cases hd : a.data with
  | nil => rw [hd] at h; cases h
  | cons x xs => rw [hd] at h; simpa using h

/-- Every error of the inner loop starts with `f`. -/
theorem deriveChildKey_error_head (lib : Lib) (i : Nat) :
    ∀ (path : List Nat) (key : Bip32Key) (msg : String),
      deriveChildKey lib i key path = .error msg → msg.data.head? = some 'f' := by
  intro path
  induction path with
  | nil => intro key msg h; simp [deriveChildKey] at h
  | cons e rest ih =>
    intro key msg h
    unfold deriveChildKey at h
    cases hc : lib.NewChildKey key e with
    | error err =>
      rw [hc] at h
      simp only [Except.error.injEq] at h
      rw [← h]
      exact head_append _ _ _ (head_append _ _ _ (head_append _ _ _ rfl))
    | ok c =>
      rw [hc] at h
      exact ih c msg h

/-- Every error of an iteration starts with `f`. -/
theorem newWallet_error_head (lib : Lib) (masterKey : Bip32Key) (i : Nat) (msg : String)
    (h : newWallet lib masterKey i = .error msg) : msg.data.head? = some 'f' := by
  unfold newWallet at h
  cases hd : deriveChildKey lib i masterKey (derivationPath i) with
  | error m =>
    simp only [hd, Except.error.injEq] at h
    rw [← h]
    exact deriveChildKey_error_head lib i _ _ _ hd
  | ok childKey =>
    cases ht : lib.ToECDSA childKey.Key with
    | error err =>
      simp only [hd, ht, Except.error.injEq] at h
      rw [← h]
      exact head_append _ _ _ (head_append _ _ _ (head_append _ _ _ rfl))
    | ok priv =>
      simp [hd, ht, PrivateKey.Public] at h

/-- Every error of the loop starts with `f`. -/
theorem walletLoop_error_head (lib : Lib) (masterKey : Bip32Key) :
    ∀ (remaining i : Nat) (wallets : List Wallet) (msg : String),
      (walletLoop lib masterKey remaining i wallets).err = some msg →
      msg.data.head? = some 'f' := by
  intro remaining
  induction remaining with
  | zero => intro i wallets msg h; simp [walletLoop] at h
  | succ r ih =>
    intro i wallets msg h
    unfold walletLoop at h
    cases hn : newWallet lib masterKey i with
    | error m =>
      rw [hn] at h
      simp only [Option.some.injEq] at h
      rw [← h]
      exact newWallet_error_head lib masterKey i m hn
    | ok w =>
      rw [hn] at h
      exact ih (i + 1) _ msg h

/-- A valid mnemonic is never answered with the invalid-mnemonic error. -/
theorem GenerateWallets_valid_err (lib : Lib) (mnemonic : String) (count : Int)
    (hv : lib.IsMnemonicValid mnemonic = true) :
    (GenerateWallets lib mnemonic count).err ≠ some "invalid mnemonic phrase" := by
  intro h
  have hf : ∀ msg : String, msg.data.head? = some 'f' → msg ≠ "invalid mnemonic phrase" := by
    intro msg hmsg heq
    rw [heq] at hmsg
    revert hmsg
    decide
  cases hm : lib.NewMasterKey (lib.NewSeed mnemonic "") with
  | error err =>
    rw [GenerateWallets_master_error lib mnemonic count err hv hm] at h
    simp only [Option.some.injEq] at h
    exact hf _ (head_append "failed to create master key: " err 'f' rfl) h
  | ok masterKey =>
    rw [GenerateWallets_loop lib mnemonic count masterKey hv hm] at h
    exact hf _ (walletLoop_error_head lib masterKey _ 0 [] _ h) rfl

/-- C10: with the entropy source and the codec of sections 4.1 and 4.2 (a well-formed
dictionary, a random source that yields bytes), every mnemonic that `GenerateMnemonic`
returns without error is the encoding of exactly 16 bytes (128 bits) of entropy, has
exactly 12 words, all of the dictionary, decodes back to its entropy with a matching
checksum, and is therefore never answered by `GenerateWallets` with the invalid-mnemonic
error; and, for any entropy and encoding functions, a failure of either makes
`GenerateMnemonic` return the empty string with that error. -/
theorem generated_mnemonic_is_valid (c : Codec) (hc : c.WellFormed)
    (source : Nat → Option (List Nat))
    (hsource : ∀ n bytes, source n = some bytes → ∀ b ∈ bytes, b < 256) :
    (∀ mnemonic, GenerateMnemonic (generate source) (encode c) = (mnemonic, none) →
      ∃ entropy, entropy.length = 16 ∧ (∀ b ∈ entropy, b < 256) ∧
        encode c entropy = .ok mnemonic ∧
        (mnemonicWords mnemonic).length = 12 ∧
        (∀ w ∈ mnemonicWords mnemonic, w ∈ c.dictionary) ∧
        decodeAndValidate c mnemonic = .ok entropy ∧
        isMnemonicValid c mnemonic = true ∧
        ∀ (lib : Lib) (count : Int), lib.IsMnemonicValid mnemonic = isMnemonicValid c mnemonic →
          (GenerateWallets lib mnemonic count).err ≠ some "invalid mnemonic phrase") ∧
    (∀ (ε : Type) (NewEntropy : Nat → Except ε (List Nat))
        (NewMnemonic : List Nat → Except ε String) (err : ε),
      (NewEntropy 128 = .error err →
        GenerateMnemonic NewEntropy NewMnemonic = ("", some err)) ∧
      (∀ entropy, NewEntropy 128 = .ok entropy → NewMnemonic entropy = .error err →
        GenerateMnemonic NewEntropy NewMnemonic = ("", some err))) := by
  constructor
  · intro mnemonic hgen
    unfold GenerateMnemonic at hgen
    cases he : generate source 128 with
    | error err => rw [he] at hgen; simp at hgen
    | ok entropy =>
      cases hm : encode c entropy with
      | error err => simp [he, hm] at hgen
      | ok m =>
        simp only [he, hm, Prod.mk.injEq, and_true] at hgen
        subst hgen
        -- the entropy source returned 16 bytes
        have hlen16 : entropy.length = 16 ∧ ∀ b ∈ entropy, b < 256 := by
          unfold generate at he
          cases hs : source (128 / 8) with
          | none => rw [hs] at he; simp at he
          | some bytes =>
            rw [hs] at he
            by_cases hl : bytes.length = 128 / 8
            · simp only [hl, ↓reduceIte, Except.ok.injEq] at he
              subst he
              exact ⟨hl, hsource _ _ hs⟩
            · simp [hl] at he
        obtain ⟨hl, hb⟩ := hlen16
        obtain ⟨m', hm', hdec, hwl, hwd⟩ := decode_encode c hc entropy (by rw [hl]; decide) hb
        rw [hm] at hm'
        simp only [Except.ok.injEq] at hm'
        subst hm'
        have hvalid : isMnemonicValid c m = true := by
          simp only [isMnemonicValid, hdec]
        refine ⟨entropy, hl, hb, hm, by rw [hwl, hl], hwd, hdec, hvalid, ?_⟩
        intro lib count hlib
        exact GenerateWallets_valid_err lib m count (by rw [hlib, hvalid])
  · intro ε NewEntropy NewMnemonic err
    constructor
    · intro h
      simp only [GenerateMnemonic, h]
    · intro entropy h1 h2
      simp only [GenerateMnemonic, h1, h2]

/-- The scripted random source yields bytes. -/
theorem zeroSource_bytes :
    ∀ n bytes, zeroSource n = some bytes → ∀ b ∈ bytes, b < 256 := by
  intro n bytes h b hb
  simp only [zeroSource, Option.some.injEq] at h
  subst h
  rw [List.eq_of_mem_replicate hb]
  decide

set_option maxRecDepth 100000 in
/-- Witness of C10: the scripted codec and a random source of zero bytes. -/
theorem generated_mnemonic_is_valid_witness :
    stubCodec.WellFormed ∧
    (∀ n bytes, zeroSource n = some bytes → ∀ b ∈ bytes, b < 256) ∧
    GenerateMnemonic (generate zeroSource) (encode stubCodec) = (zeroEntropyMnemonic, none) ∧
    ∃ entropy, entropy.length = 16 ∧ (∀ b ∈ entropy, b < 256) ∧
      encode stubCodec entropy = .ok zeroEntropyMnemonic ∧
      (mnemonicWords zeroEntropyMnemonic).length = 12 ∧
      (∀ w ∈ mnemonicWords zeroEntropyMnemonic, w ∈ stubCodec.dictionary) ∧
      decodeAndValidate stubCodec zeroEntropyMnemonic = .ok entropy ∧
      isMnemonicValid stubCodec zeroEntropyMnemonic = true ∧
      ∀ (lib : Lib) (count : Int),
        lib.IsMnemonicValid zeroEntropyMnemonic = isMnemonicValid stubCodec zeroEntropyMnemonic →
        (GenerateWallets lib zeroEntropyMnemonic count).err ≠ some "invalid mnemonic phrase" :=
  ⟨stubCodec_wellFormed, zeroSource_bytes, by decide!,
   (generated_mnemonic_is_valid stubCodec stubCodec_wellFormed zeroSource zeroSource_bytes).1
     zeroEntropyMnemonic (by decide!)⟩

end BotGo
